import Mathlib

/-!
Verification development for src/version-table/generate_version_table.py.

The script is embedded shallowly: the HTTP collaborator is modeled by the
responses it would return (a page list for the paged branch endpoint, one
optional JSON body per other endpoint, and a content response per ref), the
base64/utf-8 decoding of the standard library is a decoder parameter, and a
Python exception escaping the script is the error case of an Except value.
JSON bodies are modeled by an inductive Json type; Python dynamic behavior
(falsiness, iteration, subscription, hashability) is modeled by explicit
total functions that return an error exactly where CPython raises.
-/

set_option maxHeartbeats 1000000

namespace VersionTable

/-- A Python exception escaping the script, modeled as a message string. -/
abbrev PyErr := String

/-- JSON values as decoded by response.json().  Numbers are modeled as
integers, the only numeric shape occurring in the payloads the script reads.
An obj models a dict produced by json.loads: lookup takes the last binding
for a key, exactly as json.loads keeps the last value of a duplicated key. -/
inductive Json where
  | null
  | bool (b : Bool)
  | num (n : Int)
  | str (s : String)
  | arr (elems : List Json)
  | obj (fields : List (String × Json))

mutual

/-- Structural equality on Json values. -/
def beqJ : Json → Json → Bool
  | .null, .null => true
  | .bool a, .bool b => a == b
  | .num a, .num b => a == b
  | .str a, .str b => a == b
  | .arr a, .arr b => beqJList a b
  | .obj a, .obj b => beqJFields a b
  | _, _ => false

/-- Structural equality on element lists. -/
def beqJList : List Json → List Json → Bool
  | [], [] => true
  | x :: xs, y :: ys => beqJ x y && beqJList xs ys
  | _, _ => false

/-- Structural equality on field lists. -/
def beqJFields : List (String × Json) → List (String × Json) → Bool
  | [], [] => true
  | (k1, v1) :: xs, (k2, v2) :: ys => k1 == k2 && beqJ v1 v2 && beqJFields xs ys
  | _, _ => false

end

mutual

theorem beqJ_iff : ∀ a b : Json, beqJ a b = true ↔ a = b
  | .null, .null => by simp [beqJ]
  | .null, .bool _ | .null, .num _ | .null, .str _ | .null, .arr _ | .null, .obj _ => by
      simp [beqJ]
  | .bool _, .null | .bool _, .num _ | .bool _, .str _ | .bool _, .arr _ | .bool _, .obj _ => by
      simp [beqJ]
  | .num _, .null | .num _, .bool _ | .num _, .str _ | .num _, .arr _ | .num _, .obj _ => by
      simp [beqJ]
  | .str _, .null | .str _, .bool _ | .str _, .num _ | .str _, .arr _ | .str _, .obj _ => by
      simp [beqJ]
  | .arr _, .null | .arr _, .bool _ | .arr _, .num _ | .arr _, .str _ | .arr _, .obj _ => by
      simp [beqJ]
  | .obj _, .null | .obj _, .bool _ | .obj _, .num _ | .obj _, .str _ | .obj _, .arr _ => by
      simp [beqJ]
  | .bool a, .bool b => by simp [beqJ]
  | .num a, .num b => by simp [beqJ]
  | .str a, .str b => by simp [beqJ]
  | .arr a, .arr b => by
      have h := beqJList_iff a b
      simp [beqJ, h]
  | .obj a, .obj b => by
      have h := beqJFields_iff a b
      simp [beqJ, h]

theorem beqJList_iff : ∀ a b : List Json, beqJList a b = true ↔ a = b
  | [], [] => by simp [beqJList]
  | [], _ :: _ => by simp [beqJList]
  | _ :: _, [] => by simp [beqJList]
  | x :: xs, y :: ys => by
      have h1 := beqJ_iff x y
      have h2 := beqJList_iff xs ys
      simp [beqJList, h1, h2, Bool.and_eq_true]

theorem beqJFields_iff : ∀ a b : List (String × Json), beqJFields a b = true ↔ a = b
  | [], [] => by simp [beqJFields]
  | [], _ :: _ => by simp [beqJFields]
  | _ :: _, [] => by simp [beqJFields]
  | (k1, v1) :: xs, (k2, v2) :: ys => by
      have h1 := beqJ_iff v1 v2
      have h2 := beqJFields_iff xs ys
      simp [beqJFields, h1, h2, Bool.and_eq_true, and_assoc]

end

instance : DecidableEq Json :=
  fun a b => decidable_of_iff (beqJ a b = true) (beqJ_iff a b)

/-- First binding for a key in an association list. -/
def lookupFirst (k : String) : List (String × Json) → Option Json
  | [] => none
  | (k2, v) :: rest => if k2 = k then some v else lookupFirst k rest

/-- Last binding for a key, as a Python dict built by json.loads holds. -/
def lookupLast (k : String) (kvs : List (String × Json)) : Option Json :=
  lookupFirst k kvs.reverse

/-- Python truthiness of a JSON-shaped value (if not x). -/
def pyFalsy : Json → Bool
  | .null => true
  | .bool b => !b
  | .num n => n == 0
  | .str s => s == ""
  | .arr xs => xs.isEmpty
  | .obj kvs => kvs.isEmpty

/-- Whether the Python value is hashable (usable as dict key or set member). -/
def pyHashable : Json → Bool
  | .arr _ => false
  | .obj _ => false
  | _ => true

/-- Python equality on the modeled values.  True == 1 and False == 0 across
bool and int; different scalar types are otherwise unequal.  Container
equality falls back to structural equality: containers are unhashable and
never reach the membership checks of this script, which test hashability
first. -/
def pyEq (a b : Json) : Bool :=
  match a, b with
  | .bool x, .num n => (if x then (1 : Int) else 0) == n
  | .num n, .bool x => n == (if x then (1 : Int) else 0)
  | a, b => decide (a = b)

/-- Membership test x in s for a Python set of previously added refs.
Raises TypeError on an unhashable key, as CPython does before comparing. -/
def pyMem (x : Json) (s : List Json) : Except PyErr Bool :=
  if pyHashable x then .ok (s.any (fun y => pyEq x y)) else
    .error "TypeError: unhashable type"

/-- Subscription j[k] with a string key: KeyError when the key is absent
from a dict, TypeError when the value is not a dict. -/
def getItem (j : Json) (k : String) : Except PyErr Json :=
  match j with
  | .obj kvs =>
      match lookupLast k kvs with
      | some v => .ok v
      | none => .error ("KeyError: " ++ k)
  | _ => .error ("TypeError: value is not subscriptable by string " ++ k)

/-- The method call j.get(k): AttributeError when j is not a dict. -/
def pyDictGet (j : Json) (k : String) : Except PyErr (Option Json) :=
  match j with
  | .obj kvs => .ok (lookupLast k kvs)
  | _ => .error "AttributeError: no attribute get"

/-- Keys of a dict in first-occurrence order (iteration order of a dict). -/
def keysInOrder : List (String × Json) → List String
  | [] => []
  | (k, _) :: rest => k :: (keysInOrder rest).filter (fun k2 => k2 ≠ k)

/-- Python iteration over a JSON-shaped value: lists yield elements, dicts
yield keys, strings yield one-character strings; anything else raises
TypeError. -/
def pyIterElems : Json → Except PyErr (List Json)
  | .arr xs => .ok xs
  | .obj kvs => .ok ((keysInOrder kvs).map Json.str)
  | .str s => .ok (s.data.map (fun c => Json.str (String.mk [c])))
  | _ => .error "TypeError: value is not iterable"

/-- The slice j[:n]: lists and strings are sliced, a dict raises TypeError
(unhashable slice), other values raise TypeError (not subscriptable).  The
result is returned as the element list the subsequent for loop iterates. -/
def pySliceElems (j : Json) (n : Nat) : Except PyErr (List Json) :=
  match j with
  | .arr xs => .ok (xs.take n)
  | .str s => .ok ((s.data.take n).map (fun c => Json.str (String.mk [c])))
  | .obj _ => .error "TypeError: unhashable type: slice"
  | _ => .error "TypeError: value is not subscriptable"

mutual

/-- repr of a value, as Python would print it inside a container.  String
escaping inside repr is simplified to plain quoting; the script only ever
formats hashable scalars, so the container cases are defensive. -/
def pyRepr : Json → String
  | .null => "None"
  | .bool b => if b then "True" else "False"
  | .num n => toString n
  | .str s => "'" ++ s ++ "'"
  | .arr xs => "[" ++ pyReprSeq xs ++ "]"
  | .obj kvs => "\x7b" ++ pyReprPairs kvs ++ "\x7d"

/-- Comma-separated reprs of list elements. -/
def pyReprSeq : List Json → String
  | [] => ""
  | [x] => pyRepr x
  | x :: y :: rest => pyRepr x ++ ", " ++ pyReprSeq (y :: rest)

/-- Comma-separated reprs of dict entries. -/
def pyReprPairs : List (String × Json) → String
  | [] => ""
  | [(k, v)] => "'" ++ k ++ "': " ++ pyRepr v
  | (k, v) :: p :: rest => "'" ++ k ++ "': " ++ pyRepr v ++ ", " ++ pyReprPairs (p :: rest)

end

/-- str(x) as used by f-string interpolation: a string stays itself, any
other value is shown by its repr-like form. -/
def pyStr : Json → String
  | .str s => s
  | j => pyRepr j

/-- The whitespace class of the regular expressions and of str.strip and
str.split, restricted to the ASCII whitespace characters; the manifests and
note files involved are ASCII. -/
def pyIsSpace (c : Char) : Bool :=
  c == ' ' || c == '\t' || c == '\n' || c == '\r' || c == '\x0b' || c == '\x0c'

/-- A character of the class of digits, ASCII range. -/
def pyIsDigit (c : Char) : Bool :=
  '0' ≤ c && c ≤ '9'

/-- A character matched by the character class of digits and dots. -/
def isDigitDot (c : Char) : Bool :=
  pyIsDigit c || c == '.'

/-- Match a literal character sequence at the head of the input, returning
the rest of the input on success. -/
def matchLit : List Char → List Char → Option (List Char)
  | [], cs => some cs
  | _ :: _, [] => none
  | p :: ps, c :: cs => if p = c then matchLit ps cs else none

/-! ### The go directive regular expression

re.search of the pattern anchoring go at a line start (re.MULTILINE), then
one or more whitespace characters, then a captured version of two dotted
numeric components with an optional third.  For this pattern, greedy
matching with backtracking coincides with maximal munch, because the
whitespace class, the digit class and the literal dot are pairwise
disjoint. -/

/-- Try the go directive pattern at one position; on success return the
captured version characters. -/
def matchGoAt (cs : List Char) : Option (List Char) :=
  match cs with
  | 'g' :: 'o' :: rest =>
      let sp := rest.takeWhile pyIsSpace
      let afterSp := rest.drop sp.length
      if sp.isEmpty then none else
      let d1 := afterSp.takeWhile pyIsDigit
      let afterD1 := afterSp.drop d1.length
      if d1.isEmpty then none else
      match afterD1 with
      | '.' :: tail1 =>
          let d2 := tail1.takeWhile pyIsDigit
          let afterD2 := tail1.drop d2.length
          if d2.isEmpty then none else
          match afterD2 with
          | '.' :: tail2 =>
              let d3 := tail2.takeWhile pyIsDigit
              if d3.isEmpty then some (d1 ++ '.' :: d2) else
              some (d1 ++ '.' :: d2 ++ '.' :: d3)
          | _ => some (d1 ++ '.' :: d2)
      | _ => none
  | _ => none

/-- Scan positions left to right; the flag says whether the current
position is a line start (offset zero or preceded by a newline). -/
def searchGoAux : Bool → List Char → Option (List Char)
  | _, [] => none
  | lineStart, c :: rest =>
      match (if lineStart then matchGoAt (c :: rest) else none) with
      | some cap => some cap
      | none => searchGoAux (c == '\n') rest

/-- Leftmost line-anchored match of the go directive pattern. -/
def searchGo (cs : List Char) : Option (List Char) :=
  searchGoAux true cs

/-! ### The dependency line regular expressions

re.search of a literal module path, then one or more whitespace characters,
then a captured v followed by one or more digits or dots.  Again greedy
matching coincides with maximal munch by disjointness of the classes. -/

/-- Try the dependency pattern for one module path at one position: the
literal path, one or more whitespace characters, the v character, then one
or more digits or dots; the capture includes the v. -/
def matchDepAt (path : List Char) (cs : List Char) : Option (List Char) :=
  match matchLit path cs with
  | none => none
  | some rest =>
      let sp := rest.takeWhile pyIsSpace
      let afterSp := rest.drop sp.length
      if sp.isEmpty then none else
      match afterSp with
      | 'v' :: afterV =>
          let run := afterV.takeWhile isDigitDot
          if run.isEmpty then none else some ('v' :: run)
      | _ => none

/-- Scan positions left to right for the dependency pattern; no anchor. -/
def searchDep (path : List Char) : List Char → Option (List Char)
  | [] => none
  | c :: rest =>
      match matchDepAt path (c :: rest) with
      | some cap => some cap
      | none => searchDep path rest

/-- The literal module path of the first dependency line. -/
def restApiPath : List Char := "github.com/redhat-cne/rest-api".data

/-- The literal module path of the second dependency line. -/
def sdkGoPath : List Char := "github.com/redhat-cne/sdk-go".data

/-- The three extracted fields: golang, rest-api and sdk-go versions. -/
abbrev Triple := Option String × Option String × Option String

/-- parse_go_mod: the empty string is falsy and yields no versions;
otherwise the three regular expressions are searched independently. -/
def parse_go_mod (content : String) : Triple :=
  if content = "" then (none, none, none)
  else
    ((searchGo content.data).map String.mk,
     (searchDep restApiPath content.data).map String.mk,
     (searchDep sdkGoPath content.data).map String.mk)

/-- normalize_version_name: remove a leading v character if present. -/
def normalize_version_name (tag_name : String) : String :=
  match tag_name.data with
  | 'v' :: rest => String.mk rest
  | _ => tag_name

/-- The group of the tag allow pattern: an optional v followed by one or
more digits or dots, or the literal release- followed by one or more digits
or dots, or the literal 4. followed by one or more digits. -/
def tag_pattern_core (cs : List Char) : Bool :=
  (match cs with
   | 'v' :: rest => !rest.isEmpty && rest.all isDigitDot
   | _ => false)
  || (!cs.isEmpty && cs.all isDigitDot)
  || (match matchLit "release-".data cs with
      | some rest => !rest.isEmpty && rest.all isDigitDot
      | none => false)
  || (match cs with
      | '4' :: '.' :: ds => !ds.isEmpty && ds.all pyIsDigit
      | _ => false)

/-- Whether re.match of the anchored allow pattern succeeds on a tag name.
The dollar anchor of the pattern matches at the end of the string and also
just before a newline that ends the string, as in Python. -/
def tag_allowed (s : String) : Bool :=
  tag_pattern_core s.data ||
    (match s.data.getLast? with
     | some '\n' => tag_pattern_core s.data.dropLast
     | _ => false)

/-- str.strip with no argument: remove leading and trailing whitespace. -/
def pyStrip (s : String) : String :=
  String.mk (((s.data.dropWhile pyIsSpace).reverse.dropWhile pyIsSpace).reverse)

/-- str.split with maxsplit one and no separator: skip leading whitespace,
take the first whitespace-free token, then the remainder after the
separating whitespace run. -/
def pySplitMax1 (s : String) : List String :=
  let cs := s.data.dropWhile pyIsSpace
  match cs.takeWhile (fun c => !pyIsSpace c),
        (cs.dropWhile (fun c => !pyIsSpace c)).dropWhile pyIsSpace with
  | [], _ => []
  | tok, [] => [String.mk tok]
  | tok, rest => [String.mk tok, String.mk rest]

/-- One line of the notes file: a stripped line splitting into exactly two
parts stores the second under the first; any other line is skipped.  Later
lines overwrite earlier ones through the last-binding lookup below. -/
def parse_note_line (notes : List (String × String)) (line : String) :
    List (String × String) :=
  match pySplitMax1 (pyStrip line) with
  | [version, note] => notes ++ [(version, note)]
  | _ => notes

/-- load_version_notes: a missing or unreadable file yields the empty map
(modeled by the none case); otherwise the lines are folded in order. -/
def load_version_notes : Option (List String) → List (String × String)
  | none => []
  | some lines => lines.foldl parse_note_line []

/-- First binding in a note list. -/
def noteFindFirst (k : String) : List (String × String) → Option String
  | [] => none
  | (k2, v) :: rest => if k2 = k then some v else noteFindFirst k rest

/-- Lookup in the notes dict: the last stored binding wins, as Python
assignment overwrites. -/
def notesFind (notes : List (String × String)) (k : String) : Option String :=
  noteFindFirst k notes.reverse

/-- version_notes.get(key, empty): the note keys are strings read from the
file, so a non-string hashable key misses and yields the default; an
unhashable key raises TypeError. -/
def pyNotesGet (notes : List (String × String)) (k : Json) : Except PyErr String :=
  if pyHashable k then
    .ok (match k with
         | .str s => (notesFind notes s).getD ""
         | _ => "")
  else .error "TypeError: unhashable type"

/-- One row of the collected table data, mirroring the record dict built by
the script.  The displayed name is a Json value because a branch name read
from a response is stored unconverted. -/
structure VersionEntry where
  proxy_version : Json
  golang : String
  rest_api : String
  sdk_go : String
  note : String
deriving DecidableEq

/-- Truthiness of an optional version string: None and the empty string
are falsy. -/
def pyTruthyOptStr : Option String → Bool
  | none => false
  | some s => s ≠ ""

/-- The guard golang_ver or rest_api_ver or sdk_go_ver of the script. -/
def anyVersion (t : Triple) : Bool :=
  pyTruthyOptStr t.1 || pyTruthyOptStr t.2.1 || pyTruthyOptStr t.2.2

/-- The record dict built for a processed ref; x or the empty string is
modeled by getD, which agrees with Python on every optional version the
regexes can produce. -/
def mkEntry (proxy : Json) (t : Triple) (note : String) : VersionEntry :=
  ⟨proxy, t.1.getD "", t.2.1.getD "", t.2.2.getD "", note⟩

/-- The environment of one run: the responses the HTTP collaborator would
return, the base64 plus utf-8 decoder of the standard library, and the
notes file content.  branchPages lists the successive responses of the
paged branch endpoint, with none for a failed request; after the given
pages the server answers with an empty page.  contentResp maps the ref
string interpolated into the contents URL to the response body, with none
for a failed request. -/
structure Env where
  branchPages : List (Option Json)
  releasesResp : Option Json
  tagsResp : Option Json
  contentResp : String → Option Json
  b64decode : String → Except PyErr String
  notesFile : Option (List String)

/-- The page size the branch listing requests (the per_page parameter). -/
def per_page : Nat := 100

/-- The paging loop of get_branches: an empty (falsy) page breaks and
returns the accumulated list, a failed request is caught and returns the
empty list discarding the accumulation, and extending from a truthy
non-iterable page raises TypeError. -/
def get_branches_loop (acc : List Json) : List (Option Json) → Except PyErr (List Json)
  | [] => .ok acc
  | none :: _ => .ok []
  | some page :: rest =>
      if pyFalsy page then .ok acc
      else do
        let elems ← pyIterElems page
        get_branches_loop (acc ++ elems) rest

/-- get_branches over the successive page responses. -/
def get_branches (pages : List (Option Json)) : Except PyErr (List Json) :=
  get_branches_loop [] pages

/-- get_releases: a failed request is caught and yields the empty list;
otherwise the decoded body is returned as is. -/
def get_releases (resp : Option Json) : Json := resp.getD (Json.arr [])

/-- get_tags: same shape as get_releases. -/
def get_tags (resp : Option Json) : Json := resp.getD (Json.arr [])

/-- get_go_mod_content: a failed request is caught and yields None; with a
base64 encoding marker the content item is fetched (KeyError if absent)
and decoded (the decoder raises for invalid base64 or utf-8); otherwise
the content item or the empty string default is returned undecoded. -/
def get_go_mod_content (b64 : String → Except PyErr String) (resp : Option Json) :
    Except PyErr (Option Json) :=
  match resp with
  | none => .ok none
  | some content_data => do
      let enc ← pyDictGet content_data "encoding"
      if enc = some (Json.str "base64") then do
        let c ← getItem content_data "content"
        match c with
        | .str s => do
            let decoded ← b64 s
            .ok (some (Json.str decoded))
        | _ => .error "TypeError: argument should be a bytes-like object or ASCII string"
      else do
        let c ← pyDictGet content_data "content"
        .ok (some (c.getD (Json.str "")))

/-- parse_go_mod applied to a dynamic value: None and falsy values yield
the empty triple, a non-empty string is searched, and re.search on any
other value raises TypeError. -/
def parse_go_mod_dyn : Option Json → Except PyErr Triple
  | none => .ok (none, none, none)
  | some j =>
      if pyFalsy j then .ok (none, none, none)
      else match j with
        | .str s => .ok (parse_go_mod s)
        | _ => .error "TypeError: expected string or bytes-like object"

/-- Fetch and parse the manifest of a ref: the ref value is interpolated
into the request URL by str, which keys the content response. -/
def fetch_parse (env : Env) (ref : Json) : Except PyErr Triple := do
  parse_go_mod_dyn (← get_go_mod_content env.b64decode (env.contentResp (pyStr ref)))

/-- get_main_branch_info from the source: fetch and parse at the ref main. -/
def get_main_branch_info (env : Env) : Except PyErr Triple := do
  parse_go_mod_dyn (← get_go_mod_content env.b64decode (env.contentResp "main"))

/-- normalize_version_name applied to a dynamic value: startswith on a
non-string raises AttributeError. -/
def normalize_version_name_dyn : Json → Except PyErr Json
  | .str s => .ok (.str (normalize_version_name s))
  | _ => .error "AttributeError: no attribute startswith"

/-- re.match of the allow pattern on a dynamic value: a non-string subject
raises TypeError. -/
def tag_allowed_dyn : Json → Except PyErr Bool
  | .str s => .ok (tag_allowed s)
  | _ => .error "TypeError: expected string or bytes-like object"

/-- The comprehension building tag_to_release: every release is subscribed
at tag_name and the result must be hashable to serve as a dict key.  The
dict itself is never read again, but the comprehension still runs and can
raise. -/
def tag_to_release_pairs : List Json → Except PyErr (List (Json × Json))
  | [] => .ok []
  | rel :: rest => do
      let k ← getItem rel "tag_name"
      if pyHashable k then do
        let tail ← tag_to_release_pairs rest
        .ok ((k, rel) :: tail)
      else .error "TypeError: unhashable type"

/-- tag_to_release over the decoded releases value, which is iterated. -/
def build_tag_to_release (releases : Json) : Except PyErr (List (Json × Json)) := do
  tag_to_release_pairs (← pyIterElems releases)

/-- The accumulating state of the assembly: version_data in insertion
order and processed_refs in insertion order (a Python set; membership is
all that is ever asked of it). -/
abbrev St := List VersionEntry × List Json

/-- Phase 1: always attempt main, record it only when a version was found,
and mark main processed regardless of outcome.  The note field of the main
record is the literal empty string. -/
def process_main_branch (env : Env) : Except PyErr St := do
  let vers ← get_main_branch_info env
  let version_data := if anyVersion vers then [mkEntry (Json.str "main") vers ""] else []
  .ok (version_data, [Json.str "main"])

/-- Phase 2: every fetched branch in listing order; skip processed names,
record when a version was found, and mark the raw name processed. -/
def process_branches (env : Env) (notes : List (String × String)) :
    St → List Json → Except PyErr St
  | st, [] => .ok st
  | (version_data, processed_refs), branch :: rest => do
      let branch_name ← getItem branch "name"
      let already ← pyMem branch_name processed_refs
      if already then process_branches env notes (version_data, processed_refs) rest
      else do
        let vers ← fetch_parse env branch_name
        if anyVersion vers then do
          let note ← pyNotesGet notes branch_name
          process_branches env notes
            (version_data ++ [mkEntry branch_name vers note], processed_refs ++ [branch_name]) rest
        else
          process_branches env notes (version_data, processed_refs ++ [branch_name]) rest

/-- Phase 3: the first ten releases; skip processed raw tag names, display
the normalized name, look the note up by the raw name, and mark the raw
name processed. -/
def process_releases (env : Env) (notes : List (String × String)) :
    St → List Json → Except PyErr St
  | st, [] => .ok st
  | (version_data, processed_refs), release :: rest => do
      let tag_name ← getItem release "tag_name"
      let already ← pyMem tag_name processed_refs
      if already then process_releases env notes (version_data, processed_refs) rest
      else do
        let vers ← fetch_parse env tag_name
        if anyVersion vers then do
          let disp ← normalize_version_name_dyn tag_name
          let note ← pyNotesGet notes tag_name
          process_releases env notes
            (version_data ++ [mkEntry disp vers note], processed_refs ++ [tag_name]) rest
        else
          process_releases env notes (version_data, processed_refs ++ [tag_name]) rest

/-- Phase 4: the first twenty tags; skip processed raw names, skip names
failing the allow pattern before any fetch and before any processed mark,
then proceed as the release phase does. -/
def process_tags (env : Env) (notes : List (String × String)) :
    St → List Json → Except PyErr St
  | st, [] => .ok st
  | (version_data, processed_refs), tag :: rest => do
      let tag_name ← getItem tag "name"
      let already ← pyMem tag_name processed_refs
      if already then process_tags env notes (version_data, processed_refs) rest
      else do
        let allowed ← tag_allowed_dyn tag_name
        if !allowed then process_tags env notes (version_data, processed_refs) rest
        else do
          let vers ← fetch_parse env tag_name
          if anyVersion vers then do
            let disp ← normalize_version_name_dyn tag_name
            let note ← pyNotesGet notes tag_name
            process_tags env notes
              (version_data ++ [mkEntry disp vers note], processed_refs ++ [tag_name]) rest
          else
            process_tags env notes (version_data, processed_refs ++ [tag_name]) rest

/-- The collection part of generate_version_table, lines 135 to 228 of the
source: fetch the listings, load the notes, build the unused tag_to_release
dict, then run the four phases in order. -/
def collect_version_data (env : Env) : Except PyErr St := do
  let branches ← get_branches env.branchPages
  let releases := get_releases env.releasesResp
  let tags := get_tags env.tagsResp
  let version_notes := load_version_notes env.notesFile
  let _ ← build_tag_to_release releases
  let st ← process_main_branch env
  let st ← process_branches env version_notes st branches
  let rel10 ← pySliceElems releases 10
  let st ← process_releases env version_notes st rel10
  let tag20 ← pySliceElems tags 20
  process_tags env version_notes st tag20

/-- The sentinel returned when no phase produced a record. -/
def no_data_message : String := "No version data found."

/-- The fixed header of the rendered table, byte for byte as the source
writes it. -/
def table_header : String :=
  "| cloud-event-proxy | golang | rest-api | sdk-go  | note         |\n" ++
  "| ----------------- | ------ | -------- | ------- | ------------ |\n"

/-- One rendered row; each field is interpolated by str. -/
def render_row (e : VersionEntry) : String :=
  "| " ++ pyStr e.proxy_version ++ " | " ++ e.golang ++ " | " ++ e.rest_api ++
  " | " ++ e.sdk_go ++ " | " ++ e.note ++ " |\n"

/-- The rendered table in insertion order. -/
def render_table (version_data : List VersionEntry) : String :=
  table_header ++ String.join (version_data.map render_row)

/-- generate_version_table over an environment: collect, then render or
fall back to the sentinel when no data was collected. -/
def generate_version_table (env : Env) : Except PyErr String := do
  let st ← collect_version_data env
  if st.1.isEmpty then .ok no_data_message else .ok (render_table st.1)

/-- The default repository URL of the command line interface. -/
def default_repo_url : String := "https://github.com/redhat-cne/cloud-event-proxy"

/-- The main entry point: the optional first argument or the default URL
selects the repository; the selected server is modeled by env, so the URL
carries no further information here.  The process exits zero exactly when
the result is ok, and the ok value is what is printed to standard out. -/
def main_program (argv : List String) (env : Env) : Except PyErr String :=
  let repo_url := match argv with
    | arg :: _ => arg
    | [] => default_repo_url
  let _ := repo_url
  generate_version_table env

/-! ### Helper lemmas on the Except monad -/

@[simp] theorem exceptOkBind {α β : Type} (a : α) (f : α → Except PyErr β) :
    (Except.ok a >>= f) = f a := rfl

@[simp] theorem exceptErrBind {α β : Type} (e : PyErr) (f : α → Except PyErr β) :
    ((Except.error e : Except PyErr α) >>= f) = Except.error e := rfl

/-! ### Concrete environments used as test inputs -/

/-- An environment with no branches, no releases, no tags, and a main
manifest matching none of the three patterns. -/
def env_no_refs : Env :=
  { branchPages := []
    releasesResp := some (.arr [])
    tagsResp := some (.arr [])
    contentResp := fun r =>
      if r = "main" then some (.obj [("content", .str "module x\n")]) else none
    b64decode := fun s => .ok s
    notesFile := none }

/-- An environment with a release tagged v1.2.3 and a separate tag 1.2.3,
both with extractable manifests; the main manifest request fails. -/
def env_dup_display : Env :=
  { branchPages := []
    releasesResp := some (.arr [.obj [("tag_name", .str "v1.2.3")]])
    tagsResp := some (.arr [.obj [("name", .str "1.2.3")]])
    contentResp := fun r =>
      if r = "v1.2.3" then some (.obj [("content", .str "go 1.20\n")])
      else if r = "1.2.3" then some (.obj [("content", .str "go 1.21\n")])
      else none
    b64decode := fun s => .ok s
    notesFile := none }

/-- An environment whose releases endpoint answers with a list holding one
object that lacks the tag_name key. -/
def env_bad_release : Env :=
  { branchPages := []
    releasesResp := some (.arr [.obj []])
    tagsResp := none
    contentResp := fun _ => none
    b64decode := fun s => .ok s
    notesFile := none }

/-! ### C7: name normalization -/

/-- C7: normalize_version_name removes exactly one leading v character
when the name starts with v and is the identity otherwise; in particular
v1.2.3 maps to 1.2.3, 1.2.3 to itself and main to itself. -/
theorem normalize_strips_one_leading_v :
    (∀ cs : List Char, normalize_version_name (String.mk ('v' :: cs)) = String.mk cs)
    ∧ (∀ s : String, s.data.head? ≠ some 'v' → normalize_version_name s = s)
    ∧ normalize_version_name "v1.2.3" = "1.2.3"
    ∧ normalize_version_name "1.2.3" = "1.2.3"
    ∧ normalize_version_name "main" = "main" := by
  refine ⟨fun cs => rfl, ?_, rfl, rfl, rfl⟩
  intro s h
  unfold normalize_version_name
  split
  · next heq => exact absurd (by rw [heq]; rfl) h
  · rfl

/-- Spot check of C7 at concrete inputs, discharging the hypotheses. -/
theorem normalize_strips_one_leading_v_spot :
    normalize_version_name (String.mk ('v' :: ['1', '.', '0'])) = String.mk ['1', '.', '0']
    ∧ normalize_version_name "main" = "main" :=
  ⟨normalize_strips_one_leading_v.1 ['1', '.', '0'],
   normalize_strips_one_leading_v.2.1 "main" (by decide)⟩

/-! ### C6: the tag allow pattern -/

/-- A nonempty run of digits and dots. -/
def dotted_numeric_run (cs : List Char) : Bool :=
  !cs.isEmpty && cs.all isDigitDot

/-- The allow-list language as the specification words it: purely
numeric slash dotted optionally v prefixed, or release- followed by a
dotted numeric run, or 4. followed by a number.  This definition follows
the claim text and is compared with the embedded matcher. -/
def tag_claim_lang (s : String) : Bool :=
  dotted_numeric_run s.data
  || (match s.data with
      | 'v' :: rest => dotted_numeric_run rest
      | _ => false)
  || (match matchLit "release-".data s.data with
      | some rest => dotted_numeric_run rest
      | none => false)
  || (match s.data with
      | '4' :: '.' :: ds => !ds.isEmpty && ds.all pyIsDigit
      | _ => false)

theorem tag_pattern_core_eq_claim (cs : List Char) :
    tag_pattern_core cs = tag_claim_lang (String.mk cs) := by
  show tag_pattern_core cs = tag_claim_lang ⟨cs⟩
  unfold tag_pattern_core tag_claim_lang dotted_numeric_run
  cases hv : (match cs with
    | 'v' :: rest => !rest.isEmpty && rest.all isDigitDot
    | _ => false) <;>
    cases hp : (!cs.isEmpty && cs.all isDigitDot) <;>
      simp [hv, hp]

/-- C6 counterexample: the matcher accepts a dotted numeric name followed
by one trailing newline, which the three claimed shapes do not contain. -/
theorem tag_filter_trailing_newline :
    tag_allowed (String.mk ['1', '.', '2', '\n']) = true
    ∧ tag_claim_lang (String.mk ['1', '.', '2', '\n']) = false :=
  ⟨rfl, rfl⟩

/-- C6 amended: the allow pattern accepts exactly the claimed shapes,
optionally followed by one trailing newline (the dollar anchor of the
pattern also matches just before a string-final newline); the four
example tags behave as claimed; and a rejected tag is skipped with no
fetch, no record and no processed mark. -/
theorem tag_filter_characterization :
    (∀ s : String, tag_allowed s =
      (tag_claim_lang s ||
        (match s.data.getLast? with
         | some '\n' => tag_claim_lang (String.mk s.data.dropLast)
         | _ => false)))
    ∧ tag_allowed "v1.0.0" = true
    ∧ tag_allowed "feature-x" = false
    ∧ tag_allowed "release-4.18" = true
    ∧ tag_allowed "4.19" = true
    ∧ (∀ env notes version_data processed_refs tag rest tag_name,
        getItem tag "name" = .ok tag_name →
        pyMem tag_name processed_refs = .ok false →
        tag_allowed_dyn tag_name = .ok false →
        process_tags env notes (version_data, processed_refs) (tag :: rest) =
          process_tags env notes (version_data, processed_refs) rest) := by
  refine ⟨?_, rfl, rfl, rfl, rfl, ?_⟩
  · intro s
    unfold tag_allowed
    rw [tag_pattern_core_eq_claim]
    cases hl : s.data.getLast? with
    | none => rfl
    | some c =>
        by_cases hc : c = '\n'
        · subst hc
          rw [tag_pattern_core_eq_claim]
        · cases c
          simp_all
  · intro env notes version_data processed_refs tag rest tag_name h1 h2 h3
    simp [process_tags, h1, h2, h3]

/-- Spot check of C6 at concrete inputs, discharging the hypotheses. -/
theorem tag_filter_characterization_spot :
    tag_allowed "feature-x" = false
    ∧ process_tags env_no_refs [] ([], [Json.str "main"])
        [Json.obj [("name", Json.str "feature-x")]] =
      process_tags env_no_refs [] ([], [Json.str "main"]) [] :=
  ⟨tag_filter_characterization.2.2.1,
   tag_filter_characterization.2.2.2.2.2 env_no_refs [] [] [Json.str "main"]
     (Json.obj [("name", Json.str "feature-x")]) [] (Json.str "feature-x")
     rfl rfl rfl⟩

/-! ### C4: the no-data sentinel -/

/-- C4: when no phase produced a record the result is exactly the
sentinel string, and in particular the environment with zero branches,
zero releases, zero tags and a main manifest matching no pattern yields
it. -/
theorem no_data_sentinel :
    (∀ env st, collect_version_data env = .ok st → st.1 = [] →
      generate_version_table env = .ok no_data_message)
    ∧ generate_version_table env_no_refs = .ok no_data_message := by
  constructor
  · intro env st hc he
    unfold generate_version_table
    rw [hc]
    simp [he]
  · rfl

/-- Spot check of C4, discharging the hypotheses at the zero-input
environment. -/
theorem no_data_sentinel_spot :
    generate_version_table env_no_refs = .ok no_data_message :=
  no_data_sentinel.1 env_no_refs ([], [Json.str "main"]) rfl rfl

/-! ### C9: duplicated display names -/

/-- C9: deduplication is keyed on raw names while releases and tags are
displayed normalized, so the release v1.2.3 and the separate tag 1.2.3
produce two different rows showing the same name 1.2.3. -/
theorem duplicate_display_rows :
    collect_version_data env_dup_display =
      .ok ([{ proxy_version := .str "1.2.3", golang := "1.20", rest_api := "",
              sdk_go := "", note := "" },
            { proxy_version := .str "1.2.3", golang := "1.21", rest_api := "",
              sdk_go := "", note := "" }],
           [Json.str "main", Json.str "v1.2.3", Json.str "1.2.3"])
    ∧ generate_version_table env_dup_display =
        .ok ("| cloud-event-proxy | golang | rest-api | sdk-go  | note         |\n" ++
             "| ----------------- | ------ | -------- | ------- | ------------ |\n" ++
             "| 1.2.3 | 1.20 |  |  |  |\n" ++
             "| 1.2.3 | 1.21 |  |  |  |\n")
    ∧ ({ proxy_version := .str "1.2.3", golang := "1.20", rest_api := "",
         sdk_go := "", note := "" } : VersionEntry) ≠
        { proxy_version := .str "1.2.3", golang := "1.21", rest_api := "",
          sdk_go := "", note := "" }
    ∧ ({ proxy_version := .str "1.2.3", golang := "1.20", rest_api := "",
         sdk_go := "", note := "" } : VersionEntry).proxy_version =
        ({ proxy_version := .str "1.2.3", golang := "1.21", rest_api := "",
           sdk_go := "", note := "" } : VersionEntry).proxy_version := by
  refine ⟨rfl, rfl, ?_, rfl⟩
  intro h
  exact absurd (congrArg VersionEntry.golang h) (by decide)

/-! ### C5: branch paging -/

theorem get_branches_loop_concat (pages : List (List Json)) :
    ∀ acc : List Json, (∀ l ∈ pages, l ≠ []) →
    get_branches_loop acc (pages.map (fun l => some (Json.arr l))) =
      .ok (acc ++ pages.flatten) := by
  induction pages with
  | nil => intro acc h; simp [get_branches_loop]
  | cons l ls ih =>
      intro acc h
      have hl : l ≠ [] := h l (by simp)
      have hfl : pyFalsy (Json.arr l) = false := by
        cases l with
        | nil => exact absurd rfl hl
        | cons x xs => rfl
      simp only [List.map_cons, get_branches_loop, hfl, Bool.false_eq_true,
        if_false, pyIterElems, exceptOkBind]
      rw [ih (acc ++ l) (fun l2 h2 => h l2 (List.mem_cons_of_mem _ h2))]
      simp

theorem get_branches_loop_fail (pages : List (List Json)) :
    ∀ (acc : List Json) (rest : List (Option Json)), (∀ l ∈ pages, l ≠ []) →
    get_branches_loop acc (pages.map (fun l => some (Json.arr l)) ++ none :: rest) =
      .ok [] := by
  induction pages with
  | nil => intro acc rest h; simp [get_branches_loop]
  | cons l ls ih =>
      intro acc rest h
      have hl : l ≠ [] := h l (by simp)
      have hfl : pyFalsy (Json.arr l) = false := by
        cases l with
        | nil => exact absurd rfl hl
        | cons x xs => rfl
      simp only [List.map_cons, List.cons_append, get_branches_loop, hfl,
        Bool.false_eq_true, if_false, pyIterElems, exceptOkBind]
      exact ih (acc ++ l) rest (fun l2 h2 => h l2 (List.mem_cons_of_mem _ h2))

/-- C5: the branch enumeration concatenates nonempty pages in order until
the server answers an empty page (here: after the listed pages), a failing
page request makes the whole enumeration yield the empty list discarding
the pages already fetched, and the requested page size is one hundred. -/
theorem branch_paging_behavior :
    (∀ pages : List (List Json), (∀ l ∈ pages, l ≠ []) →
      get_branches (pages.map (fun l => some (Json.arr l))) = .ok pages.flatten)
    ∧ (∀ (pages : List (List Json)) (rest : List (Option Json)),
        (∀ l ∈ pages, l ≠ []) →
        get_branches (pages.map (fun l => some (Json.arr l)) ++ none :: rest) = .ok [])
    ∧ per_page = 100 := by
  refine ⟨fun pages h => ?_, fun pages rest h => ?_, rfl⟩
  · rw [get_branches, get_branches_loop_concat pages [] h]; rfl
  · exact get_branches_loop_fail pages [] rest h

/-- Spot check of C5: two nonempty pages concatenate; the same two pages
followed by a failing request yield the empty list. -/
theorem branch_paging_behavior_spot :
    get_branches [some (Json.arr [Json.str "a"]),
                  some (Json.arr [Json.str "b", Json.str "c"])] =
      .ok [Json.str "a", Json.str "b", Json.str "c"]
    ∧ get_branches [some (Json.arr [Json.str "a"]),
                    some (Json.arr [Json.str "b", Json.str "c"]), none] =
      .ok [] := by
  refine ⟨?_, ?_⟩
  · have h := branch_paging_behavior.1 [[Json.str "a"], [Json.str "b", Json.str "c"]]
      (by intro l hl; fin_cases hl <;> simp)
    simpa using h
  · have h := branch_paging_behavior.2.1 [[Json.str "a"], [Json.str "b", Json.str "c"]] []
      (by intro l hl; fin_cases hl <;> simp)
    simpa using h

/-! ### C8: note attachment -/

theorem bind_ok_iff {α β : Type} (m : Except PyErr α) (f : α → Except PyErr β) (b : β) :
    (m >>= f) = .ok b ↔ ∃ a, m = .ok a ∧ f a = .ok b := by
  cases m with
  | error e => simp [Except.bind]
  | ok a => simp [Except.bind]

theorem process_branches_extends (items : List Json) :
    ∀ env notes data proc st',
    process_branches env notes (data, proc) items = .ok st' →
    ∃ tail, st'.1 = data ++ tail := by
  induction items with
  | nil =>
      intro env notes data proc st' h
      simp only [process_branches] at h
      cases h
      exact ⟨[], by simp⟩
  | cons b rest ih =>
      intro env notes data proc st' h
      simp only [process_branches] at h
      rw [bind_ok_iff] at h
      obtain ⟨name, hn, h⟩ := h
      rw [bind_ok_iff] at h
      obtain ⟨already, hm, h⟩ := h
      cases already with
      | true =>
          simp only [if_true] at h
          exact ih env notes data proc st' h
      | false =>
          simp only [Bool.false_eq_true, if_false] at h
          rw [bind_ok_iff] at h
          obtain ⟨vers, hv, h⟩ := h
          cases hay : anyVersion vers with
          | true =>
              rw [hay] at h
              simp only [if_true] at h
              rw [bind_ok_iff] at h
              obtain ⟨note, hnote, h⟩ := h
              obtain ⟨tail, ht⟩ := ih env notes _ _ st' h
              exact ⟨mkEntry name vers note :: tail, by simpa using ht⟩
          | false =>
              rw [hay] at h
              simp only [Bool.false_eq_true, if_false] at h
              exact ih env notes data _ st' h

theorem process_releases_extends (items : List Json) :
    ∀ env notes data proc st',
    process_releases env notes (data, proc) items = .ok st' →
    ∃ tail, st'.1 = data ++ tail := by
  induction items with
  | nil =>
      intro env notes data proc st' h
      simp only [process_releases] at h
      cases h
      exact ⟨[], by simp⟩
  | cons r rest ih =>
      intro env notes data proc st' h
      simp only [process_releases] at h
      rw [bind_ok_iff] at h
      obtain ⟨tag_name, hn, h⟩ := h
      rw [bind_ok_iff] at h
      obtain ⟨already, hm, h⟩ := h
      cases already with
      | true =>
          simp only [if_true] at h
          exact ih env notes data proc st' h
      | false =>
          simp only [Bool.false_eq_true, if_false] at h
          rw [bind_ok_iff] at h
          obtain ⟨vers, hv, h⟩ := h
          cases hay : anyVersion vers with
          | true =>
              rw [hay] at h
              simp only [if_true] at h
              rw [bind_ok_iff] at h
              obtain ⟨disp, hd, h⟩ := h
              rw [bind_ok_iff] at h
              obtain ⟨note, hnote, h⟩ := h
              obtain ⟨tail, ht⟩ := ih env notes _ _ st' h
              exact ⟨mkEntry disp vers note :: tail, by simpa using ht⟩
          | false =>
              rw [hay] at h
              simp only [Bool.false_eq_true, if_false] at h
              exact ih env notes data _ st' h

theorem process_tags_extends (items : List Json) :
    ∀ env notes data proc st',
    process_tags env notes (data, proc) items = .ok st' →
    ∃ tail, st'.1 = data ++ tail := by
  induction items with
  | nil =>
      intro env notes data proc st' h
      simp only [process_tags] at h
      cases h
      exact ⟨[], by simp⟩
  | cons t rest ih =>
      intro env notes data proc st' h
      simp only [process_tags] at h
      rw [bind_ok_iff] at h
      obtain ⟨tag_name, hn, h⟩ := h
      rw [bind_ok_iff] at h
      obtain ⟨already, hm, h⟩ := h
      cases already with
      | true =>
          simp only [if_true] at h
          exact ih env notes data proc st' h
      | false =>
          simp only [Bool.false_eq_true, if_false] at h
          rw [bind_ok_iff] at h
          obtain ⟨allowed, hal, h⟩ := h
          cases allowed with
          | false =>
              simp only [Bool.not_false, if_true] at h
              exact ih env notes data proc st' h
          | true =>
              simp only [Bool.not_true, Bool.false_eq_true, if_false] at h
              rw [bind_ok_iff] at h
              obtain ⟨vers, hv, h⟩ := h
              cases hay : anyVersion vers with
              | true =>
                  rw [hay] at h
                  simp only [if_true] at h
                  rw [bind_ok_iff] at h
                  obtain ⟨disp, hd, h⟩ := h
                  rw [bind_ok_iff] at h
                  obtain ⟨note, hnote, h⟩ := h
                  obtain ⟨tail, ht⟩ := ih env notes _ _ st' h
                  exact ⟨mkEntry disp vers note :: tail, by simpa using ht⟩
              | false =>
                  rw [hay] at h
                  simp only [Bool.false_eq_true, if_false] at h
                  exact ih env notes data _ st' h

theorem collect_main_first (env : Env) (entries : List VersionEntry)
    (processed : List Json) (mainSt : St)
    (hc : collect_version_data env = .ok (entries, processed))
    (hm : process_main_branch env = .ok mainSt) :
    ∃ tail, entries = mainSt.1 ++ tail := by
  unfold collect_version_data at hc
  rw [bind_ok_iff] at hc
  obtain ⟨branches, hb, hc⟩ := hc
  rw [bind_ok_iff] at hc
  obtain ⟨t2r, ht, hc⟩ := hc
  rw [bind_ok_iff] at hc
  obtain ⟨st1, hm1, hc⟩ := hc
  rw [hm] at hm1
  cases hm1
  rw [bind_ok_iff] at hc
  obtain ⟨st2, h2, hc⟩ := hc
  rw [bind_ok_iff] at hc
  obtain ⟨rel10, hr, hc⟩ := hc
  rw [bind_ok_iff] at hc
  obtain ⟨st3, h3, hc⟩ := hc
  rw [bind_ok_iff] at hc
  obtain ⟨tag20, htg, hc⟩ := hc
  obtain ⟨t1, e1⟩ := process_branches_extends branches env _ mainSt.1 mainSt.2 st2
    (by rw [← h2])
  obtain ⟨t2, e2⟩ := process_releases_extends rel10 env _ st2.1 st2.2 st3
    (by rw [← h3])
  obtain ⟨t3, e3⟩ := process_tags_extends tag20 env _ st3.1 st3.2 (entries, processed)
    (by rw [← hc])
  refine ⟨t1 ++ t2 ++ t3, ?_⟩
  have : entries = st3.1 ++ t3 := e3
  rw [this, e2, e1]
  simp

/-- C8: the record of the main phase always carries the empty note, even
when the notes map holds a note for main (the main phase never consults
the map, and its records open the collected output); the branch, release
and tag phases attach the note looked up by the raw ref name. -/
theorem note_attachment :
    (∀ env st, process_main_branch env = .ok st → ∀ e ∈ st.1, e.note = "")
    ∧ (∀ env entries processed mainSt,
        collect_version_data env = .ok (entries, processed) →
        process_main_branch env = .ok mainSt →
        ∃ tail, entries = mainSt.1 ++ tail)
    ∧ (∀ env notes data proc branch rest name vers note,
        getItem branch "name" = .ok name →
        pyMem name proc = .ok false →
        fetch_parse env name = .ok vers →
        anyVersion vers = true →
        pyNotesGet notes name = .ok note →
        process_branches env notes (data, proc) (branch :: rest) =
          process_branches env notes
            (data ++ [mkEntry name vers note], proc ++ [name]) rest)
    ∧ (∀ env notes data proc release rest tag_name vers disp note,
        getItem release "tag_name" = .ok tag_name →
        pyMem tag_name proc = .ok false →
        fetch_parse env tag_name = .ok vers →
        anyVersion vers = true →
        normalize_version_name_dyn tag_name = .ok disp →
        pyNotesGet notes tag_name = .ok note →
        process_releases env notes (data, proc) (release :: rest) =
          process_releases env notes
            (data ++ [mkEntry disp vers note], proc ++ [tag_name]) rest)
    ∧ (∀ env notes data proc tag rest tag_name vers disp note,
        getItem tag "name" = .ok tag_name →
        pyMem tag_name proc = .ok false →
        tag_allowed_dyn tag_name = .ok true →
        fetch_parse env tag_name = .ok vers →
        anyVersion vers = true →
        normalize_version_name_dyn tag_name = .ok disp →
        pyNotesGet notes tag_name = .ok note →
        process_tags env notes (data, proc) (tag :: rest) =
          process_tags env notes
            (data ++ [mkEntry disp vers note], proc ++ [tag_name]) rest) := by
  refine ⟨?_, collect_main_first, ?_, ?_, ?_⟩
  · intro env st h e he
    unfold process_main_branch at h
    rw [bind_ok_iff] at h
    obtain ⟨vers, hv, h⟩ := h
    cases h
    cases hay : anyVersion vers with
    | true => rw [hay] at he; simp at he; rw [he]; rfl
    | false => rw [hay] at he; simp at he
  · intro env notes data proc branch rest name vers note h1 h2 h3 h4 h5
    simp [process_branches, h1, h2, h3, h4, h5]
  · intro env notes data proc release rest tag_name vers disp note h1 h2 h3 h4 h5 h6
    simp [process_releases, h1, h2, h3, h4, h5, h6]
  · intro env notes data proc tag rest tag_name vers disp note h1 h2 h3 h4 h5 h6 h7
    simp [process_tags, h1, h2, h3, h4, h5, h6, h7]

/-- An environment whose notes file holds a note for main and whose main
manifest has a go directive. -/
def env_main_note : Env :=
  { branchPages := []
    releasesResp := some (.arr [])
    tagsResp := some (.arr [])
    contentResp := fun r =>
      if r = "main" then some (.obj [("content", .str "go 1.22\n")]) else none
    b64decode := fun s => .ok s
    notesFile := some ["main attention required"] }

/-- Spot check of C8: the main record of an environment whose notes map
holds the key main still has the empty note, and one branch emission step
attaches the note found under the raw name. -/
theorem note_attachment_spot :
    ({ proxy_version := Json.str "main", golang := "1.22", rest_api := "",
       sdk_go := "", note := "" } : VersionEntry).note = ""
    ∧ process_branches env_dup_display [("v1.2.3", "a note")] ([], [])
        [Json.obj [("name", Json.str "v1.2.3")]] =
      process_branches env_dup_display [("v1.2.3", "a note")]
        ([mkEntry (Json.str "v1.2.3") (some "1.20", none, none) "a note"],
         [Json.str "v1.2.3"]) [] :=
  ⟨note_attachment.1 env_main_note
      ([{ proxy_version := Json.str "main", golang := "1.22", rest_api := "",
          sdk_go := "", note := "" }], [Json.str "main"]) rfl _ (List.mem_singleton.mpr rfl),
   note_attachment.2.2.1 env_dup_display [("v1.2.3", "a note")] [] []
      (Json.obj [("name", Json.str "v1.2.3")]) [] (Json.str "v1.2.3")
      (some "1.20", none, none) "a note" rfl rfl rfl rfl rfl⟩

/-! ### C1: deduplication with first-write-wins priority

The collected records carry normalized display names, so to speak about
the raw ref name of each record the phases are replayed by an instrumented
twin that pairs every record with the raw name it was emitted under; the
twin is proved to project onto the real phases. -/

/-- Membership in the processed set as a plain boolean, for hashable
values (the guarded form pyMem checks hashability first). -/
def pyMemB (x : Json) (s : List Json) : Bool := s.any (fun y => pyEq x y)

/-- The canonical key of a hashable value: Python equates True with 1 and
False with 0, so bools collapse onto their integer value. -/
def pyCanon : Json → Json
  | .bool b => .num (if b then 1 else 0)
  | j => j

theorem pyMem_eq (x : Json) (s : List Json) :
    pyMem x s = if pyHashable x then .ok (pyMemB x s) else
      .error "TypeError: unhashable type" := rfl

theorem pyEq_canon (a b : Json) : pyEq a b = decide (pyCanon a = pyCanon b) := by
  rw [Bool.eq_iff_iff]
  cases a <;> cases b <;> simp [pyEq, pyCanon]
  rename_i x y
  cases x <;> cases y <;> decide

theorem pyEq_refl (a : Json) : pyEq a a = true := by
  rw [pyEq_canon]; simp

/-- The instrumented state: every record paired with its raw ref name,
beside the processed set. -/
abbrev RSt := List (Json × VersionEntry) × List Json

/-- Instrumented phase 1. -/
def process_main_branchR (env : Env) : Except PyErr RSt := do
  let vers ← get_main_branch_info env
  let rows := if anyVersion vers then
      [(Json.str "main", mkEntry (Json.str "main") vers "")] else []
  .ok (rows, [Json.str "main"])

/-- Instrumented phase 2. -/
def process_branchesR (env : Env) (notes : List (String × String)) :
    RSt → List Json → Except PyErr RSt
  | st, [] => .ok st
  | (rows, processed_refs), branch :: rest => do
      let branch_name ← getItem branch "name"
      let already ← pyMem branch_name processed_refs
      if already then process_branchesR env notes (rows, processed_refs) rest
      else do
        let vers ← fetch_parse env branch_name
        if anyVersion vers then do
          let note ← pyNotesGet notes branch_name
          process_branchesR env notes
            (rows ++ [(branch_name, mkEntry branch_name vers note)],
             processed_refs ++ [branch_name]) rest
        else
          process_branchesR env notes (rows, processed_refs ++ [branch_name]) rest

/-- Instrumented phase 3: the raw tag name keys the row, the display name
is normalized. -/
def process_releasesR (env : Env) (notes : List (String × String)) :
    RSt → List Json → Except PyErr RSt
  | st, [] => .ok st
  | (rows, processed_refs), release :: rest => do
      let tag_name ← getItem release "tag_name"
      let already ← pyMem tag_name processed_refs
      if already then process_releasesR env notes (rows, processed_refs) rest
      else do
        let vers ← fetch_parse env tag_name
        if anyVersion vers then do
          let disp ← normalize_version_name_dyn tag_name
          let note ← pyNotesGet notes tag_name
          process_releasesR env notes
            (rows ++ [(tag_name, mkEntry disp vers note)],
             processed_refs ++ [tag_name]) rest
        else
          process_releasesR env notes (rows, processed_refs ++ [tag_name]) rest

/-- Instrumented phase 4. -/
def process_tagsR (env : Env) (notes : List (String × String)) :
    RSt → List Json → Except PyErr RSt
  | st, [] => .ok st
  | (rows, processed_refs), tag :: rest => do
      let tag_name ← getItem tag "name"
      let already ← pyMem tag_name processed_refs
      if already then process_tagsR env notes (rows, processed_refs) rest
      else do
        let allowed ← tag_allowed_dyn tag_name
        if !allowed then process_tagsR env notes (rows, processed_refs) rest
        else do
          let vers ← fetch_parse env tag_name
          if anyVersion vers then do
            let disp ← normalize_version_name_dyn tag_name
            let note ← pyNotesGet notes tag_name
            process_tagsR env notes
              (rows ++ [(tag_name, mkEntry disp vers note)],
               processed_refs ++ [tag_name]) rest
          else
            process_tagsR env notes (rows, processed_refs ++ [tag_name]) rest

/-- The instrumented collection. -/
def collect_version_dataR (env : Env) : Except PyErr RSt := do
  let branches ← get_branches env.branchPages
  let releases := get_releases env.releasesResp
  let tags := get_tags env.tagsResp
  let version_notes := load_version_notes env.notesFile
  let _ ← build_tag_to_release releases
  let st ← process_main_branchR env
  let st ← process_branchesR env version_notes st branches
  let rel10 ← pySliceElems releases 10
  let st ← process_releasesR env version_notes st rel10
  let tag20 ← pySliceElems tags 20
  process_tagsR env version_notes st tag20

theorem process_branchesR_proj (items : List Json) :
    ∀ env notes rows proc rst,
    process_branchesR env notes (rows, proc) items = .ok rst →
    process_branches env notes (rows.map Prod.snd, proc) items =
      .ok (rst.1.map Prod.snd, rst.2) := by
  induction items with
  | nil =>
      intro env notes rows proc rst h
      simp only [process_branchesR] at h
      cases h
      simp [process_branches]
  | cons b rest ih =>
      intro env notes rows proc rst h
      simp only [process_branchesR] at h
      rw [bind_ok_iff] at h
      obtain ⟨name, hn, h⟩ := h
      rw [bind_ok_iff] at h
      obtain ⟨already, hm, h⟩ := h
      cases already with
      | true =>
          simp only [if_true] at h
          simp [process_branches, hn, hm]
          exact ih env notes rows proc rst h
      | false =>
          simp only [Bool.false_eq_true, if_false] at h
          rw [bind_ok_iff] at h
          obtain ⟨vers, hv, h⟩ := h
          cases hay : anyVersion vers with
          | true =>
              rw [hay] at h
              simp only [if_true] at h
              rw [bind_ok_iff] at h
              obtain ⟨note, hnote, h⟩ := h
              have := ih env notes (rows ++ [(name, mkEntry name vers note)])
                (proc ++ [name]) rst h
              simp only [List.map_append, List.map_cons, List.map_nil] at this
              simp [process_branches, hn, hm, hv, hay, hnote]
              exact this
          | false =>
              rw [hay] at h
              simp only [Bool.false_eq_true, if_false] at h
              simp [process_branches, hn, hm, hv, hay]
              exact ih env notes rows (proc ++ [name]) rst h

theorem process_releasesR_proj (items : List Json) :
    ∀ env notes rows proc rst,
    process_releasesR env notes (rows, proc) items = .ok rst →
    process_releases env notes (rows.map Prod.snd, proc) items =
      .ok (rst.1.map Prod.snd, rst.2) := by
  induction items with
  | nil =>
      intro env notes rows proc rst h
      simp only [process_releasesR] at h
      cases h
      simp [process_releases]
  | cons r rest ih =>
      intro env notes rows proc rst h
      simp only [process_releasesR] at h
      rw [bind_ok_iff] at h
      obtain ⟨tag_name, hn, h⟩ := h
      rw [bind_ok_iff] at h
      obtain ⟨already, hm, h⟩ := h
      cases already with
      | true =>
          simp only [if_true] at h
          simp [process_releases, hn, hm]
          exact ih env notes rows proc rst h
      | false =>
          simp only [Bool.false_eq_true, if_false] at h
          rw [bind_ok_iff] at h
          obtain ⟨vers, hv, h⟩ := h
          cases hay : anyVersion vers with
          | true =>
              rw [hay] at h
              simp only [if_true] at h
              rw [bind_ok_iff] at h
              obtain ⟨disp, hd, h⟩ := h
              rw [bind_ok_iff] at h
              obtain ⟨note, hnote, h⟩ := h
              have := ih env notes (rows ++ [(tag_name, mkEntry disp vers note)])
                (proc ++ [tag_name]) rst h
              simp only [List.map_append, List.map_cons, List.map_nil] at this
              simp [process_releases, hn, hm, hv, hay, hd, hnote]
              exact this
          | false =>
              rw [hay] at h
              simp only [Bool.false_eq_true, if_false] at h
              simp [process_releases, hn, hm, hv, hay]
              exact ih env notes rows (proc ++ [tag_name]) rst h

theorem process_tagsR_proj (items : List Json) :
    ∀ env notes rows proc rst,
    process_tagsR env notes (rows, proc) items = .ok rst →
    process_tags env notes (rows.map Prod.snd, proc) items =
      .ok (rst.1.map Prod.snd, rst.2) := by
  induction items with
  | nil =>
      intro env notes rows proc rst h
      simp only [process_tagsR] at h
      cases h
      simp [process_tags]
  | cons t rest ih =>
      intro env notes rows proc rst h
      simp only [process_tagsR] at h
      rw [bind_ok_iff] at h
      obtain ⟨tag_name, hn, h⟩ := h
      rw [bind_ok_iff] at h
      obtain ⟨already, hm, h⟩ := h
      cases already with
      | true =>
          simp only [if_true] at h
          simp [process_tags, hn, hm]
          exact ih env notes rows proc rst h
      | false =>
          simp only [Bool.false_eq_true, if_false] at h
          rw [bind_ok_iff] at h
          obtain ⟨allowed, hal, h⟩ := h
          cases allowed with
          | false =>
              simp only [Bool.not_false, if_true] at h
              simp [process_tags, hn, hm, hal]
              exact ih env notes rows proc rst h
          | true =>
              simp only [Bool.not_true, Bool.false_eq_true, if_false] at h
              rw [bind_ok_iff] at h
              obtain ⟨vers, hv, h⟩ := h
              cases hay : anyVersion vers with
              | true =>
                  rw [hay] at h
                  simp only [if_true] at h
                  rw [bind_ok_iff] at h
                  obtain ⟨disp, hd, h⟩ := h
                  rw [bind_ok_iff] at h
                  obtain ⟨note, hnote, h⟩ := h
                  have := ih env notes (rows ++ [(tag_name, mkEntry disp vers note)])
                    (proc ++ [tag_name]) rst h
                  simp only [List.map_append, List.map_cons, List.map_nil] at this
                  simp [process_tags, hn, hm, hal, hv, hay, hd, hnote]
                  exact this
              | false =>
                  rw [hay] at h
                  simp only [Bool.false_eq_true, if_false] at h
                  simp [process_tags, hn, hm, hal, hv, hay]
                  exact ih env notes rows (proc ++ [tag_name]) rst h

theorem collect_version_dataR_proj (env : Env) (rst : RSt)
    (h : collect_version_dataR env = .ok rst) :
    collect_version_data env = .ok (rst.1.map Prod.snd, rst.2) := by
  unfold collect_version_dataR at h
  rw [bind_ok_iff] at h
  obtain ⟨branches, hb, h⟩ := h
  rw [bind_ok_iff] at h
  obtain ⟨t2r, ht, h⟩ := h
  rw [bind_ok_iff] at h
  obtain ⟨st1, hm1, h⟩ := h
  rw [bind_ok_iff] at h
  obtain ⟨st2, h2, h⟩ := h
  rw [bind_ok_iff] at h
  obtain ⟨rel10, hr, h⟩ := h
  rw [bind_ok_iff] at h
  obtain ⟨st3, h3, h⟩ := h
  rw [bind_ok_iff] at h
  obtain ⟨tag20, htg, h⟩ := h
  have hm1p : process_main_branch env = .ok (st1.1.map Prod.snd, st1.2) := by
    unfold process_main_branchR at hm1
    unfold process_main_branch
    rw [bind_ok_iff] at hm1
    obtain ⟨vers, hv, hm1⟩ := hm1
    cases hm1
    rw [hv]
    cases hay : anyVersion vers <;> simp [hay]
  have h2p := process_branchesR_proj branches env _ st1.1 st1.2 st2 (by rw [← h2])
  have h3p := process_releasesR_proj rel10 env _ st2.1 st2.2 st3 (by rw [← h3])
  have hp := process_tagsR_proj tag20 env _ st3.1 st3.2 rst (by rw [← h])
  unfold collect_version_data
  rw [hb]
  simp only [exceptOkBind]
  rw [ht]
  simp only [exceptOkBind]
  rw [hm1p]
  simp only [exceptOkBind]
  rw [h2p]
  simp only [exceptOkBind]
  rw [hr]
  simp only [exceptOkBind]
  rw [h3p]
  simp only [exceptOkBind]
  rw [htg]
  simp only [exceptOkBind]
  exact hp

/-- The invariant of the instrumented state: raw names of emitted rows are
pairwise distinct under Python equality, and each is marked processed. -/
def RawsInv (rst : RSt) : Prop :=
  (rst.1.map Prod.fst).Pairwise (fun a b => pyEq a b = false)
  ∧ ∀ r ∈ rst.1.map Prod.fst, pyMemB r rst.2 = true

theorem pyMemB_append (x : Json) (s : List Json) (t : List Json) :
    pyMemB x s = true → pyMemB x (s ++ t) = true := by
  intro h
  unfold pyMemB at h ⊢
  rw [List.any_append, h, Bool.true_or]

theorem pyMemB_self (x : Json) (s : List Json) :
    pyMemB x (s ++ [x]) = true := by
  unfold pyMemB
  rw [List.any_append, List.any_cons, List.any_nil, pyEq_refl]
  simp

/-- A fresh name is distinct, under Python equality, from every name whose
mark is already in the processed set. -/
theorem fresh_distinct {name r : Json} {proc : List Json}
    (hfresh : pyMemB name proc = false) (hr : pyMemB r proc = true) :
    pyEq r name = false := by
  unfold pyMemB at hr hfresh
  rw [List.any_eq_true] at hr
  obtain ⟨y, hy, hry⟩ := hr
  rw [List.any_eq_false] at hfresh
  have hny := hfresh y hy
  rw [pyEq_canon] at hry hny ⊢
  simp only [decide_eq_true_eq] at hry hny
  simp only [decide_eq_false_iff_not]
  intro hrn
  exact hny (hrn ▸ hry)

/-- Extending the state with a fresh name preserves the invariant. -/
theorem RawsInv_extend {rows : List (Json × VersionEntry)} {proc : List Json}
    {name : Json} {e : VersionEntry}
    (hinv : RawsInv (rows, proc)) (hfresh : pyMemB name proc = false) :
    RawsInv (rows ++ [(name, e)], proc ++ [name]) := by
  obtain ⟨hpair, hmem⟩ := hinv
  constructor
  · simp only [List.map_append, List.map_cons, List.map_nil]
    rw [List.pairwise_append]
    refine ⟨hpair, List.pairwise_singleton _ _, ?_⟩
    intro r hr b hb
    simp only [List.mem_singleton] at hb
    subst hb
    exact fresh_distinct hfresh (hmem r hr)
  · intro r hr
    simp only [List.map_append, List.map_cons, List.map_nil, List.mem_append,
      List.mem_singleton] at hr
    cases hr with
    | inl h => exact pyMemB_append _ _ _ (hmem r h)
    | inr h => subst h; exact pyMemB_self _ _

/-- Marking a name processed without emitting preserves the invariant. -/
theorem RawsInv_mark {rows : List (Json × VersionEntry)} {proc : List Json}
    {name : Json} (hinv : RawsInv (rows, proc)) :
    RawsInv (rows, proc ++ [name]) :=
  ⟨hinv.1, fun r hr => pyMemB_append _ _ _ (hinv.2 r hr)⟩

theorem process_branchesR_inv (items : List Json) :
    ∀ env notes rows proc rst,
    process_branchesR env notes (rows, proc) items = .ok rst →
    RawsInv (rows, proc) → RawsInv rst := by
  induction items with
  | nil =>
      intro env notes rows proc rst h hinv
      simp only [process_branchesR] at h
      cases h
      exact hinv
  | cons b rest ih =>
      intro env notes rows proc rst h hinv
      simp only [process_branchesR] at h
      rw [bind_ok_iff] at h
      obtain ⟨name, hn, h⟩ := h
      rw [bind_ok_iff] at h
      obtain ⟨already, hm, h⟩ := h
      cases already with
      | true =>
          simp only [if_true] at h
          exact ih env notes rows proc rst h hinv
      | false =>
          simp only [Bool.false_eq_true, if_false] at h
          rw [bind_ok_iff] at h
          obtain ⟨vers, hv, h⟩ := h
          have hfresh : pyMemB name proc = false := by
            rw [pyMem_eq] at hm
            by_cases hh : pyHashable name = true
            · rw [if_pos hh] at hm
              exact Except.ok.inj hm
            · rw [if_neg hh] at hm
              exact absurd hm (by simp)
          cases hay : anyVersion vers with
          | true =>
              rw [hay] at h
              simp only [if_true] at h
              rw [bind_ok_iff] at h
              obtain ⟨note, hnote, h⟩ := h
              exact ih env notes _ _ rst h (RawsInv_extend hinv hfresh)
          | false =>
              rw [hay] at h
              simp only [Bool.false_eq_true, if_false] at h
              exact ih env notes rows _ rst h (RawsInv_mark hinv)

theorem process_releasesR_inv (items : List Json) :
    ∀ env notes rows proc rst,
    process_releasesR env notes (rows, proc) items = .ok rst →
    RawsInv (rows, proc) → RawsInv rst := by
  induction items with
  | nil =>
      intro env notes rows proc rst h hinv
      simp only [process_releasesR] at h
      cases h
      exact hinv
  | cons r rest ih =>
      intro env notes rows proc rst h hinv
      simp only [process_releasesR] at h
      rw [bind_ok_iff] at h
      obtain ⟨tag_name, hn, h⟩ := h
      rw [bind_ok_iff] at h
      obtain ⟨already, hm, h⟩ := h
      cases already with
      | true =>
          simp only [if_true] at h
          exact ih env notes rows proc rst h hinv
      | false =>
          simp only [Bool.false_eq_true, if_false] at h
          rw [bind_ok_iff] at h
          obtain ⟨vers, hv, h⟩ := h
          have hfresh : pyMemB tag_name proc = false := by
            rw [pyMem_eq] at hm
            by_cases hh : pyHashable tag_name = true
            · rw [if_pos hh] at hm
              exact Except.ok.inj hm
            · rw [if_neg hh] at hm
              exact absurd hm (by simp)
          cases hay : anyVersion vers with
          | true =>
              rw [hay] at h
              simp only [if_true] at h
              rw [bind_ok_iff] at h
              obtain ⟨disp, hd, h⟩ := h
              rw [bind_ok_iff] at h
              obtain ⟨note, hnote, h⟩ := h
              exact ih env notes _ _ rst h (RawsInv_extend hinv hfresh)
          | false =>
              rw [hay] at h
              simp only [Bool.false_eq_true, if_false] at h
              exact ih env notes rows _ rst h (RawsInv_mark hinv)

theorem process_tagsR_inv (items : List Json) :
    ∀ env notes rows proc rst,
    process_tagsR env notes (rows, proc) items = .ok rst →
    RawsInv (rows, proc) → RawsInv rst := by
  induction items with
  | nil =>
      intro env notes rows proc rst h hinv
      simp only [process_tagsR] at h
      cases h
      exact hinv
  | cons t rest ih =>
      intro env notes rows proc rst h hinv
      simp only [process_tagsR] at h
      rw [bind_ok_iff] at h
      obtain ⟨tag_name, hn, h⟩ := h
      rw [bind_ok_iff] at h
      obtain ⟨already, hm, h⟩ := h
      cases already with
      | true =>
          simp only [if_true] at h
          exact ih env notes rows proc rst h hinv
      | false =>
          simp only [Bool.false_eq_true, if_false] at h
          rw [bind_ok_iff] at h
          obtain ⟨allowed, hal, h⟩ := h
          cases allowed with
          | false =>
              simp only [Bool.not_false, if_true] at h
              exact ih env notes rows proc rst h hinv
          | true =>
              simp only [Bool.not_true, Bool.false_eq_true, if_false] at h
              rw [bind_ok_iff] at h
              obtain ⟨vers, hv, h⟩ := h
              have hfresh : pyMemB tag_name proc = false := by
                rw [pyMem_eq] at hm
                by_cases hh : pyHashable tag_name = true
                · rw [if_pos hh] at hm
                  exact Except.ok.inj hm
                · rw [if_neg hh] at hm
                  exact absurd hm (by simp)
              cases hay : anyVersion vers with
              | true =>
                  rw [hay] at h
                  simp only [if_true] at h
                  rw [bind_ok_iff] at h
                  obtain ⟨disp, hd, h⟩ := h
                  rw [bind_ok_iff] at h
                  obtain ⟨note, hnote, h⟩ := h
                  exact ih env notes _ _ rst h (RawsInv_extend hinv hfresh)
              | false =>
                  rw [hay] at h
                  simp only [Bool.false_eq_true, if_false] at h
                  exact ih env notes rows _ rst h (RawsInv_mark hinv)

theorem collect_version_dataR_inv (env : Env) (rst : RSt)
    (h : collect_version_dataR env = .ok rst) : RawsInv rst := by
  unfold collect_version_dataR at h
  rw [bind_ok_iff] at h
  obtain ⟨branches, hb, h⟩ := h
  rw [bind_ok_iff] at h
  obtain ⟨t2r, ht, h⟩ := h
  rw [bind_ok_iff] at h
  obtain ⟨st1, hm1, h⟩ := h
  rw [bind_ok_iff] at h
  obtain ⟨st2, h2, h⟩ := h
  rw [bind_ok_iff] at h
  obtain ⟨rel10, hr, h⟩ := h
  rw [bind_ok_iff] at h
  obtain ⟨st3, h3, h⟩ := h
  rw [bind_ok_iff] at h
  obtain ⟨tag20, htg, h⟩ := h
  have hinv1 : RawsInv st1 := by
    unfold process_main_branchR at hm1
    rw [bind_ok_iff] at hm1
    obtain ⟨vers, hv, hm1⟩ := hm1
    cases hm1
    cases hay : anyVersion vers <;>
      simp only [hay, if_true, Bool.false_eq_true, if_false] <;>
      constructor <;>
      simp [pyMemB, pyEq_refl]
  have hinv2 := process_branchesR_inv branches env _ st1.1 st1.2 st2
    (by rw [← h2]) (by rw [← Prod.mk.eta (p := st1)] at hinv1; exact hinv1)
  have hinv3 := process_releasesR_inv rel10 env _ st2.1 st2.2 st3
    (by rw [← h3]) (by rw [← Prod.mk.eta (p := st2)] at hinv2; exact hinv2)
  exact process_tagsR_inv tag20 env _ st3.1 st3.2 rst
    (by rw [← h]) (by rw [← Prod.mk.eta (p := st3)] at hinv3; exact hinv3)

/-- C1: over any environment, the instrumented run projects onto the real
collection, the raw names of the emitted records are pairwise distinct
under Python equality (each raw ref yields at most one record) and all of
them are marked processed; and in each later phase a ref whose raw name is
already processed is skipped outright, which is what makes the earliest
phase win. -/
theorem ref_dedup_first_write_wins :
    (∀ env rows processed,
      collect_version_dataR env = .ok (rows, processed) →
      collect_version_data env = .ok (rows.map Prod.snd, processed)
      ∧ (rows.map Prod.fst).Pairwise (fun a b => pyEq a b = false)
      ∧ ∀ r ∈ rows.map Prod.fst, pyMemB r processed = true)
    ∧ (∀ env notes version_data processed_refs branch rest name,
        getItem branch "name" = .ok name →
        pyMem name processed_refs = .ok true →
        process_branches env notes (version_data, processed_refs) (branch :: rest) =
          process_branches env notes (version_data, processed_refs) rest)
    ∧ (∀ env notes version_data processed_refs release rest tag_name,
        getItem release "tag_name" = .ok tag_name →
        pyMem tag_name processed_refs = .ok true →
        process_releases env notes (version_data, processed_refs) (release :: rest) =
          process_releases env notes (version_data, processed_refs) rest)
    ∧ (∀ env notes version_data processed_refs tag rest tag_name,
        getItem tag "name" = .ok tag_name →
        pyMem tag_name processed_refs = .ok true →
        process_tags env notes (version_data, processed_refs) (tag :: rest) =
          process_tags env notes (version_data, processed_refs) rest) := by
  refine ⟨?_, ?_, ?_, ?_⟩
  · intro env rows processed h
    have hp := collect_version_dataR_proj env (rows, processed) h
    have hi := collect_version_dataR_inv env (rows, processed) h
    exact ⟨hp, hi.1, hi.2⟩
  · intro env notes version_data processed_refs branch rest name h1 h2
    simp [process_branches, h1, h2]
  · intro env notes version_data processed_refs release rest tag_name h1 h2
    simp [process_releases, h1, h2]
  · intro env notes version_data processed_refs tag rest tag_name h1 h2
    simp [process_tags, h1, h2]

/-- Spot check of C1 at the duplicated-display environment: the two rows
come from the distinct raw names v1.2.3 and 1.2.3, both marked processed,
and the projection recovers the real collection. -/
theorem ref_dedup_first_write_wins_spot :
    collect_version_data env_dup_display =
      .ok ([(Json.str "v1.2.3",
             { proxy_version := Json.str "1.2.3", golang := "1.20", rest_api := "",
               sdk_go := "", note := "" }),
            (Json.str "1.2.3",
             { proxy_version := Json.str "1.2.3", golang := "1.21", rest_api := "",
               sdk_go := "", note := "" })].map Prod.snd,
           [Json.str "main", Json.str "v1.2.3", Json.str "1.2.3"])
    ∧ ([Json.str "v1.2.3", Json.str "1.2.3"] : List Json).Pairwise
        (fun a b => pyEq a b = false) := by
  have h := ref_dedup_first_write_wins.1 env_dup_display
    [(Json.str "v1.2.3",
      { proxy_version := Json.str "1.2.3", golang := "1.20", rest_api := "",
        sdk_go := "", note := "" }),
     (Json.str "1.2.3",
      { proxy_version := Json.str "1.2.3", golang := "1.21", rest_api := "",
        sdk_go := "", note := "" })]
    [Json.str "main", Json.str "v1.2.3", Json.str "1.2.3"] rfl
  exact ⟨h.1, by simpa using h.2.1⟩

/-! ### C2: error behavior

The script catches only RequestException; a response body of an unexpected
JSON shape raises an uncaught exception.  The claim is therefore settled by
a crashing counterexample, together with a totality theorem for responses
of the shape the API documents. -/

/-- An element of a listing response of the expected shape: an object with
a string under the given key. -/
def ObjWithStr (key : String) (x : Json) : Prop :=
  ∃ kvs s, x = .obj kvs ∧ lookupLast key kvs = some (.str s)

/-- A listing endpoint body of the expected shape. -/
def NameListWF (key : String) (j : Json) : Prop :=
  ∃ xs, j = .arr xs ∧ ∀ x ∈ xs, ObjWithStr key x

/-- A content endpoint body of the expected shape: an object; under a
base64 marker it has a string content field; otherwise its content field,
if present, is a string. -/
def ContentWF (j : Json) : Prop :=
  ∃ kvs, j = .obj kvs
    ∧ (lookupLast "encoding" kvs = some (.str "base64") →
        ∃ s, lookupLast "content" kvs = some (.str s))
    ∧ (lookupLast "encoding" kvs ≠ some (.str "base64") →
        lookupLast "content" kvs = none ∨ ∃ s, lookupLast "content" kvs = some (.str s))

/-- Well-formedness of an environment: every response is of the shape the
API documents and the decoder accepts every payload it is given. -/
structure EnvWF (env : Env) : Prop where
  pages : ∀ p ∈ env.branchPages, ∀ j, p = some j → NameListWF "name" j
  releases : ∀ j, env.releasesResp = some j → NameListWF "tag_name" j
  tags : ∀ j, env.tagsResp = some j → NameListWF "name" j
  contents : ∀ r j, env.contentResp r = some j → ContentWF j
  decoder : ∀ s, ∃ t, env.b64decode s = .ok t

theorem getItem_of_objWithStr {key : String} {x : Json} (h : ObjWithStr key x) :
    ∃ s, getItem x key = .ok (.str s) := by
  obtain ⟨kvs, s, hx, hlk⟩ := h
  subst hx
  exact ⟨s, by simp [getItem, hlk]⟩

theorem parse_go_mod_dyn_str (t : String) :
    ∃ x, parse_go_mod_dyn (some (.str t)) = .ok x := by
  unfold parse_go_mod_dyn
  by_cases h : pyFalsy (.str t) = true
  · simp only [h, if_true]
    exact ⟨_, rfl⟩
  · simp only [Bool.not_eq_true] at h
    simp only [h, Bool.false_eq_true, if_false]
    exact ⟨_, rfl⟩

theorem get_go_mod_content_wf {env : Env}
    (hC : ∀ r j, env.contentResp r = some j → ContentWF j)
    (hD : ∀ s, ∃ t, env.b64decode s = .ok t) (ref : String) :
    ∃ r, get_go_mod_content env.b64decode (env.contentResp ref) = .ok r
      ∧ (r = none ∨ ∃ s, r = some (Json.str s)) := by
  cases hr : env.contentResp ref with
  | none => exact ⟨none, by simp [get_go_mod_content], Or.inl rfl⟩
  | some j =>
      obtain ⟨kvs, hj, henc, hplain⟩ := hC _ j hr
      subst hj
      by_cases he : lookupLast "encoding" kvs = some (Json.str "base64")
      · obtain ⟨s, hs⟩ := henc he
        obtain ⟨t, ht⟩ := hD s
        refine ⟨some (.str t), ?_, Or.inr ⟨t, rfl⟩⟩
        simp [get_go_mod_content, pyDictGet, he, hs, getItem, ht]
      · rcases hplain he with hnone | ⟨s, hs⟩
        · refine ⟨some (.str ""), ?_, Or.inr ⟨"", rfl⟩⟩
          simp [get_go_mod_content, pyDictGet, he, hnone]
        · refine ⟨some (.str s), ?_, Or.inr ⟨s, rfl⟩⟩
          simp [get_go_mod_content, pyDictGet, he, hs]

theorem fetch_parse_wf {env : Env}
    (hC : ∀ r j, env.contentResp r = some j → ContentWF j)
    (hD : ∀ s, ∃ t, env.b64decode s = .ok t) (ref : Json) :
    ∃ t, fetch_parse env ref = .ok t := by
  obtain ⟨r, hr, hshape⟩ := get_go_mod_content_wf hC hD (pyStr ref)
  unfold fetch_parse
  rw [hr]
  simp only [exceptOkBind]
  rcases hshape with h | ⟨s, h⟩
  · subst h; exact ⟨_, rfl⟩
  · subst h; exact parse_go_mod_dyn_str s

theorem get_main_branch_info_wf {env : Env}
    (hC : ∀ r j, env.contentResp r = some j → ContentWF j)
    (hD : ∀ s, ∃ t, env.b64decode s = .ok t) :
    ∃ t, get_main_branch_info env = .ok t := by
  obtain ⟨r, hr, hshape⟩ := get_go_mod_content_wf hC hD "main"
  unfold get_main_branch_info
  rw [hr]
  simp only [exceptOkBind]
  rcases hshape with h | ⟨s, h⟩
  · subst h; exact ⟨_, rfl⟩
  · subst h; exact parse_go_mod_dyn_str s

theorem get_branches_loop_wf (pages : List (Option Json))
    (hp : ∀ p ∈ pages, ∀ j, p = some j → NameListWF "name" j) :
    ∀ acc : List Json, (∀ b ∈ acc, ObjWithStr "name" b) →
    ∃ bs, get_branches_loop acc pages = .ok bs ∧ ∀ b ∈ bs, ObjWithStr "name" b := by
  induction pages with
  | nil => intro acc hacc; exact ⟨acc, rfl, hacc⟩
  | cons p rest ih =>
      intro acc hacc
      cases p with
      | none => exact ⟨[], rfl, by intro b hb; cases hb⟩
      | some j =>
          obtain ⟨xs, hj, hxs⟩ := hp (some j) (by simp) j rfl
          subst hj
          cases xs with
          | nil => exact ⟨acc, rfl, hacc⟩
          | cons x xt =>
              have hrec := ih (fun q hq => hp q (List.mem_cons_of_mem _ hq))
                (acc ++ x :: xt)
                (by
                  intro b hb
                  rcases List.mem_append.mp hb with h | h
                  · exact hacc b h
                  · exact hxs b h)
              obtain ⟨bs, hbs, hgood⟩ := hrec
              exact ⟨bs, by simp [get_branches_loop, pyFalsy, pyIterElems, hbs], hgood⟩

theorem tag_to_release_pairs_wf (xs : List Json)
    (hxs : ∀ x ∈ xs, ObjWithStr "tag_name" x) :
    ∃ ps, tag_to_release_pairs xs = .ok ps := by
  induction xs with
  | nil => exact ⟨[], rfl⟩
  | cons x xt ih =>
      obtain ⟨s, hget⟩ := getItem_of_objWithStr (hxs x (by simp))
      obtain ⟨ps, hps⟩ := ih (fun y hy => hxs y (List.mem_cons_of_mem _ hy))
      exact ⟨(Json.str s, x) :: ps, by simp [tag_to_release_pairs, hget, pyHashable, hps]⟩

theorem pySliceElems_wf {key : String} {j : Json} (n : Nat)
    (h : NameListWF key j) :
    ∃ xs, pySliceElems j n = .ok xs ∧ ∀ x ∈ xs, ObjWithStr key x := by
  obtain ⟨ys, hj, hys⟩ := h
  subst hj
  exact ⟨ys.take n, rfl, fun x hx => hys x (List.take_subset n ys hx)⟩

theorem process_branches_wf (items : List Json) {env : Env}
    (hC : ∀ r j, env.contentResp r = some j → ContentWF j)
    (hD : ∀ s, ∃ t, env.b64decode s = .ok t)
    (hitems : ∀ b ∈ items, ObjWithStr "name" b) :
    ∀ notes data proc, ∃ st', process_branches env notes (data, proc) items = .ok st' := by
  induction items with
  | nil => intro notes data proc; exact ⟨(data, proc), rfl⟩
  | cons b rest ih =>
      intro notes data proc
      have ih2 := ih (fun y hy => hitems y (List.mem_cons_of_mem _ hy))
      obtain ⟨s, hget⟩ := getItem_of_objWithStr (hitems b (by simp))
      obtain ⟨vers, hfp⟩ := fetch_parse_wf hC hD (.str s)
      cases hmb : pyMemB (.str s) proc with
      | true =>
          obtain ⟨st', hst⟩ := ih2 notes data proc
          exact ⟨st', by simp [process_branches, hget, pyMem_eq, pyHashable, hmb, hst]⟩
      | false =>
          cases hay : anyVersion vers with
          | true =>
              obtain ⟨st', hst⟩ := ih2 notes
                (data ++ [mkEntry (.str s) vers ((notesFind notes s).getD "")])
                (proc ++ [Json.str s])
              exact ⟨st', by
                simp [process_branches, hget, pyMem_eq, pyHashable, hmb, hfp, hay,
                  pyNotesGet, hst]⟩
          | false =>
              obtain ⟨st', hst⟩ := ih2 notes data (proc ++ [Json.str s])
              exact ⟨st', by
                simp [process_branches, hget, pyMem_eq, pyHashable, hmb, hfp, hay, hst]⟩

theorem process_releases_wf (items : List Json) {env : Env}
    (hC : ∀ r j, env.contentResp r = some j → ContentWF j)
    (hD : ∀ s, ∃ t, env.b64decode s = .ok t)
    (hitems : ∀ b ∈ items, ObjWithStr "tag_name" b) :
    ∀ notes data proc, ∃ st', process_releases env notes (data, proc) items = .ok st' := by
  induction items with
  | nil => intro notes data proc; exact ⟨(data, proc), rfl⟩
  | cons b rest ih =>
      intro notes data proc
      have ih2 := ih (fun y hy => hitems y (List.mem_cons_of_mem _ hy))
      obtain ⟨s, hget⟩ := getItem_of_objWithStr (hitems b (by simp))
      obtain ⟨vers, hfp⟩ := fetch_parse_wf hC hD (.str s)
      cases hmb : pyMemB (.str s) proc with
      | true =>
          obtain ⟨st', hst⟩ := ih2 notes data proc
          exact ⟨st', by simp [process_releases, hget, pyMem_eq, pyHashable, hmb, hst]⟩
      | false =>
          cases hay : anyVersion vers with
          | true =>
              obtain ⟨st', hst⟩ := ih2 notes
                (data ++ [mkEntry (.str (normalize_version_name s)) vers
                  ((notesFind notes s).getD "")])
                (proc ++ [Json.str s])
              exact ⟨st', by
                simp [process_releases, hget, pyMem_eq, pyHashable, hmb, hfp, hay,
                  normalize_version_name_dyn, pyNotesGet, hst]⟩
          | false =>
              obtain ⟨st', hst⟩ := ih2 notes data (proc ++ [Json.str s])
              exact ⟨st', by
                simp [process_releases, hget, pyMem_eq, pyHashable, hmb, hfp, hay, hst]⟩

theorem process_tags_wf (items : List Json) {env : Env}
    (hC : ∀ r j, env.contentResp r = some j → ContentWF j)
    (hD : ∀ s, ∃ t, env.b64decode s = .ok t)
    (hitems : ∀ b ∈ items, ObjWithStr "name" b) :
    ∀ notes data proc, ∃ st', process_tags env notes (data, proc) items = .ok st' := by
  induction items with
  | nil => intro notes data proc; exact ⟨(data, proc), rfl⟩
  | cons b rest ih =>
      intro notes data proc
      have ih2 := ih (fun y hy => hitems y (List.mem_cons_of_mem _ hy))
      obtain ⟨s, hget⟩ := getItem_of_objWithStr (hitems b (by simp))
      obtain ⟨vers, hfp⟩ := fetch_parse_wf hC hD (.str s)
      cases hmb : pyMemB (.str s) proc with
      | true =>
          obtain ⟨st', hst⟩ := ih2 notes data proc
          exact ⟨st', by simp [process_tags, hget, pyMem_eq, pyHashable, hmb, hst]⟩
      | false =>
          cases hta : tag_allowed s with
          | false =>
              obtain ⟨st', hst⟩ := ih2 notes data proc
              exact ⟨st', by
                simp [process_tags, hget, pyMem_eq, pyHashable, hmb,
                  tag_allowed_dyn, hta, hst]⟩
          | true =>
              cases hay : anyVersion vers with
              | true =>
                  obtain ⟨st', hst⟩ := ih2 notes
                    (data ++ [mkEntry (.str (normalize_version_name s)) vers
                      ((notesFind notes s).getD "")])
                    (proc ++ [Json.str s])
                  exact ⟨st', by
                    simp [process_tags, hget, pyMem_eq, pyHashable, hmb,
                      tag_allowed_dyn, hta, hfp, hay,
                      normalize_version_name_dyn, pyNotesGet, hst]⟩
              | false =>
                  obtain ⟨st', hst⟩ := ih2 notes data (proc ++ [Json.str s])
                  exact ⟨st', by
                    simp [process_tags, hget, pyMem_eq, pyHashable, hmb,
                      tag_allowed_dyn, hta, hfp, hay, hst]⟩

theorem releases_value_wf (env : Env) (hwf : EnvWF env) :
    NameListWF "tag_name" (get_releases env.releasesResp) := by
  cases hr : env.releasesResp with
  | none => exact ⟨[], rfl, by intro x hx; cases hx⟩
  | some j =>
      have := hwf.releases j hr
      simpa [get_releases] using this

theorem tags_value_wf (env : Env) (hwf : EnvWF env) :
    NameListWF "name" (get_tags env.tagsResp) := by
  cases hr : env.tagsResp with
  | none => exact ⟨[], rfl, by intro x hx; cases hx⟩
  | some j =>
      have := hwf.tags j hr
      simpa [get_tags] using this

theorem collect_version_data_wf (env : Env) (hwf : EnvWF env) :
    ∃ st, collect_version_data env = .ok st := by
  obtain ⟨bs, hbs, hbsw⟩ := get_branches_loop_wf env.branchPages hwf.pages []
    (by intro b hb; cases hb)
  obtain ⟨xs, hxs, hxsw⟩ := releases_value_wf env hwf
  obtain ⟨ts, hts, htsw⟩ := tags_value_wf env hwf
  obtain ⟨ps, hps⟩ := tag_to_release_pairs_wf xs hxsw
  obtain ⟨vers, hv⟩ := get_main_branch_info_wf hwf.contents hwf.decoder
  obtain ⟨st1, h1⟩ := process_branches_wf bs hwf.contents hwf.decoder hbsw
    (load_version_notes env.notesFile)
    (if anyVersion vers then [mkEntry (Json.str "main") vers ""] else [])
    [Json.str "main"]
  obtain ⟨rel10, hrel, hrelw⟩ := pySliceElems_wf 10 (⟨xs, hxs, hxsw⟩ :
    NameListWF "tag_name" (get_releases env.releasesResp))
  obtain ⟨st2, h2⟩ := process_releases_wf rel10 hwf.contents hwf.decoder hrelw
    (load_version_notes env.notesFile) st1.1 st1.2
  obtain ⟨tag20, htag, htagw⟩ := pySliceElems_wf 20 (⟨ts, hts, htsw⟩ :
    NameListWF "name" (get_tags env.tagsResp))
  obtain ⟨st3, h3⟩ := process_tags_wf tag20 hwf.contents hwf.decoder htagw
    (load_version_notes env.notesFile) st2.1 st2.2
  refine ⟨st3, ?_⟩
  unfold collect_version_data
  rw [get_branches, hbs]
  simp only [exceptOkBind]
  rw [build_tag_to_release]
  rw [hxs]
  simp only [pyIterElems, exceptOkBind]
  rw [hps]
  simp only [exceptOkBind]
  rw [process_main_branch, hv]
  simp only [exceptOkBind]
  rw [h1]
  simp only [exceptOkBind]
  rw [hxs] at hrel
  rw [hrel]
  simp only [exceptOkBind]
  rw [Prod.mk.eta] at h2
  rw [h2]
  simp only [exceptOkBind]
  rw [htag]
  simp only [exceptOkBind]
  rw [Prod.mk.eta] at h3
  exact h3

/-- C2 counterexample: a releases response of the JSON list [ {} ] makes
the tag_to_release comprehension raise KeyError before any phase runs; the
error escapes generate_version_table and main, so the process does not
print a table and exits nonzero. -/
theorem malformed_release_entry_raises :
    generate_version_table env_bad_release = .error "KeyError: tag_name"
    ∧ main_program ["https://github.com/redhat-cne/cloud-event-proxy"]
        env_bad_release = .error "KeyError: tag_name" :=
  ⟨rfl, rfl⟩

/-- C2 amended: for every environment whose responses are of the shape the
API documents (listings are arrays of objects with the string name or
tag_name field, content responses are objects whose content is a string,
base64 payloads decode), generate_version_table returns a string and main
completes with it, for every argument vector. -/
theorem wellformed_run_total (env : Env) (hwf : EnvWF env) :
    (∃ out, generate_version_table env = .ok out)
    ∧ ∀ argv, ∃ out, main_program argv env = .ok out := by
  obtain ⟨st, hst⟩ := collect_version_data_wf env hwf
  have hg : ∃ out, generate_version_table env = .ok out := by
    unfold generate_version_table
    rw [hst]
    simp only [exceptOkBind]
    by_cases he : st.1.isEmpty = true
    · rw [if_pos he]; exact ⟨_, rfl⟩
    · rw [if_neg he]; exact ⟨_, rfl⟩
  exact ⟨hg, fun argv => hg⟩

/-- Spot check of C2 amended at a concrete well-formed environment. -/
theorem wellformed_run_total_spot :
    ∃ out, generate_version_table env_no_refs = .ok out :=
  (wellformed_run_total env_no_refs
    { pages := by intro p hp; simp [env_no_refs] at hp
      releases := by
        intro j hj
        simp only [env_no_refs] at hj
        cases hj
        exact ⟨[], rfl, by intro x hx; cases hx⟩
      tags := by
        intro j hj
        simp only [env_no_refs] at hj
        cases hj
        exact ⟨[], rfl, by intro x hx; cases hx⟩
      contents := by
        intro r j hj
        simp only [env_no_refs] at hj
        by_cases hr : r = "main"
        · rw [if_pos hr] at hj
          cases hj
          refine ⟨[("content", .str "module x\n")], rfl, ?_, ?_⟩
          · intro h
            simp [lookupLast, lookupFirst] at h
          · intro _
            exact Or.inr ⟨"module x\n", rfl⟩
        · rw [if_neg hr] at hj
          cases hj
      decoder := fun s => ⟨s, rfl⟩ }).1

/-! ### C3 and C10: the extraction regular expressions

re.search returns the leftmost match, so a text can contain the directive
or dependency line named by the claim and still yield the capture of an
earlier match.  The counterexamples exhibit this; the amended statements
quantify over all texts in which the named line is the leftmost match. -/

theorem matchLit_self_append (p : List Char) : ∀ r, matchLit p (p ++ r) = some r := by
  induction p with
  | nil => intro r; rfl
  | cons c cs ih => intro r; simp [matchLit, ih]

theorem matchDepAt_lit (path rest : List Char) :
    matchDepAt path (path ++ rest) =
      (if (rest.takeWhile pyIsSpace).isEmpty then none else
       match rest.drop (rest.takeWhile pyIsSpace).length with
       | 'v' :: afterV =>
           if (afterV.takeWhile isDigitDot).isEmpty then none
           else some ('v' :: afterV.takeWhile isDigitDot)
       | _ => none) := by
  rw [matchDepAt, matchLit_self_append]

theorem matchGoAt_go121 (post : List Char)
    (hpost : post = [] ∨ ∃ c cs, post = c :: cs ∧ pyIsDigit c = false ∧ c ≠ '.') :
    matchGoAt ("go 1.21".data ++ post) = some "1.21".data := by
  have hd2 : List.takeWhile pyIsDigit ('2' :: '1' :: post) = ['2', '1'] := by
    rcases hpost with h | ⟨c, cs, h, hdig, hdot⟩
    · subst h
      rfl
    · subst h
      rw [List.takeWhile_cons_of_pos (by decide), List.takeWhile_cons_of_pos (by decide),
        List.takeWhile_cons_of_neg (by simp [hdig])]
  show matchGoAt ('g' :: 'o' :: (' ' :: '1' :: '.' :: '2' :: '1' :: post)) = some "1.21".data
  rw [matchGoAt]
  rw [List.takeWhile_cons_of_pos (by decide), List.takeWhile_cons_of_neg (by decide)]
  simp only [List.length_cons, List.length_nil, List.drop_succ_cons, List.drop_zero,
    List.isEmpty_cons]
  rw [List.takeWhile_cons_of_pos (by decide), List.takeWhile_cons_of_neg (by decide)]
  simp only [List.length_cons, List.length_nil, List.drop_succ_cons, List.drop_zero,
    List.isEmpty_cons]
  rw [hd2]
  simp only [List.length_cons, List.length_nil, List.drop_succ_cons, List.drop_zero,
    List.isEmpty_cons]
  rcases hpost with h | ⟨c, cs, h, hdig, hdot⟩
  · subst h
    rfl
  · subst h
    simp only [Bool.false_eq_true, if_false]
    split
    · rename_i tail2 heq
      cases heq
      exact absurd rfl hdot
    · rfl

theorem matchDepAt_restapi (post : List Char) :
    matchDepAt restApiPath ("github.com/redhat-cne/rest-api v1.2.3-rc1".data ++ post) =
      some "v1.2.3".data := by
  have hsplit : "github.com/redhat-cne/rest-api v1.2.3-rc1".data =
      restApiPath ++ " v1.2.3-rc1".data := by decide
  have hrest : " v1.2.3-rc1".data ++ post =
      ' ' :: 'v' :: '1' :: '.' :: '2' :: '.' :: '3' :: '-' :: 'r' :: 'c' :: '1' :: post := rfl
  rw [hsplit, List.append_assoc, matchDepAt_lit, hrest]
  rw [List.takeWhile_cons_of_pos (by decide), List.takeWhile_cons_of_neg (by decide)]
  simp only [List.length_cons, List.length_nil, List.drop_succ_cons, List.drop_zero,
    List.isEmpty_cons, Bool.false_eq_true, if_false]
  rw [List.takeWhile_cons_of_pos (by decide), List.takeWhile_cons_of_pos (by decide),
    List.takeWhile_cons_of_pos (by decide), List.takeWhile_cons_of_pos (by decide),
    List.takeWhile_cons_of_pos (by decide), List.takeWhile_cons_of_neg (by decide)]
  rfl

/-- The line-start flag searchGoAux carries after scanning a block. -/
def flag_after (b : Bool) : List Char → Bool
  | [] => b
  | c :: rest => flag_after (c == '\n') rest

theorem flag_after_newline (pre : List Char) :
    ∀ b, pre.getLast? = some '\n' → flag_after b pre = true := by
  induction pre with
  | nil => intro b h; cases h
  | cons c rest ih =>
      intro b h
      cases hr : rest with
      | nil =>
          subst hr
          simp only [List.getLast?_singleton, Option.some.injEq] at h
          subst h
          rfl
      | cons d ds =>
          rw [flag_after, ← hr]
          apply ih
          rw [hr]
          rw [hr] at h
          rw [List.getLast?_cons_cons] at h
          exact h

/-- Whether position i of a block is a line start, when the block itself
begins at a position with flag b: position zero carries b, and a later
position is a line start exactly when the previous character is a
newline.  These are precisely the positions where the multiline anchor of
the go pattern lets a match begin. -/
def line_start_flag (b : Bool) (pre : List Char) : Nat → Bool
  | 0 => b
  | i + 1 => decide (pre[i]? = some '\n')

/-- Scanning past a block in which no line-start position matches leaves
the search at the block end with the flag the block induces; positions
that are not line starts are skipped by the anchor and need no
hypothesis. -/
theorem searchGoAux_append_anchored (pre : List Char) :
    ∀ (b : Bool) (rest : List Char),
    (∀ i, i < pre.length → line_start_flag b pre i = true →
      matchGoAt (pre.drop i ++ rest) = none) →
    searchGoAux b (pre ++ rest) = searchGoAux (flag_after b pre) rest := by
  induction pre with
  | nil => intro b rest h; rfl
  | cons c pre2 ih =>
      intro b rest h
      rw [List.cons_append, searchGoAux]
      have hshift : ∀ i, i < pre2.length → line_start_flag (c == '\n') pre2 i = true →
          matchGoAt (pre2.drop i ++ rest) = none := by
        intro i hi hflag
        have hstep : line_start_flag b (c :: pre2) (i + 1) = true := by
          cases i with
          | zero =>
              simp only [line_start_flag] at hflag ⊢
              simp only [List.getElem?_cons_zero, Option.some.injEq, decide_eq_true_eq]
              exact eq_of_beq hflag
          | succ j =>
              simp only [line_start_flag] at hflag ⊢
              simpa [List.getElem?_cons_succ] using hflag
        have := h (i + 1) (by simpa using Nat.succ_lt_succ hi) hstep
        simpa using this
      cases b with
      | true =>
          have h0 : matchGoAt (c :: (pre2 ++ rest)) = none := by
            have := h 0 (by simp) (by simp [line_start_flag])
            simpa using this
          rw [if_pos rfl, h0, flag_after]
          exact ih _ rest hshift
      | false =>
          rw [if_neg (by simp), flag_after]
          exact ih _ rest hshift

theorem searchDep_append (path : List Char) (pre : List Char) :
    ∀ rest : List Char,
    (∀ i, i < pre.length → matchDepAt path (pre.drop i ++ rest) = none) →
    searchDep path (pre ++ rest) = searchDep path rest := by
  induction pre with
  | nil => intro rest h; rfl
  | cons c pre2 ih =>
      intro rest h
      have h0 : matchDepAt path (c :: (pre2 ++ rest)) = none := by
        have := h 0 (by simp)
        simpa using this
      rw [List.cons_append, searchDep, h0]
      exact ih rest (fun i hi => by
        have := h (i + 1) (by simpa using Nat.succ_lt_succ hi)
        simpa using this)

theorem matchGoAt_shape (cs : List Char) (v : List Char) (h : matchGoAt cs = some v) :
    ∃ d1 d2, d1 ≠ [] ∧ d2 ≠ [] ∧ (∀ c ∈ d1, pyIsDigit c = true) ∧
      (∀ c ∈ d2, pyIsDigit c = true) ∧
      (v = d1 ++ '.' :: d2 ∨
        ∃ d3, d3 ≠ [] ∧ (∀ c ∈ d3, pyIsDigit c = true) ∧
          v = d1 ++ '.' :: d2 ++ '.' :: d3) := by
  rw [matchGoAt.eq_def] at h
  split at h
  · simp only [] at h
    split at h
    · exact absurd h (by simp)
    · split at h
      · exact absurd h (by simp)
      · split at h
        · split at h
          · exact absurd h (by simp)
          · split at h
            · split at h
              · cases h
                refine ⟨_, _, ?_, ?_,
                  fun c hc => List.mem_takeWhile_imp hc,
                  fun c hc => List.mem_takeWhile_imp hc, Or.inl rfl⟩
                · simp_all [List.isEmpty_iff]
                · simp_all [List.isEmpty_iff]
              · cases h
                refine ⟨_, _, ?_, ?_,
                  fun c hc => List.mem_takeWhile_imp hc,
                  fun c hc => List.mem_takeWhile_imp hc,
                  Or.inr ⟨_, ?_, fun c hc => List.mem_takeWhile_imp hc, rfl⟩⟩
                · simp_all [List.isEmpty_iff]
                · simp_all [List.isEmpty_iff]
                · simp_all [List.isEmpty_iff]
            · cases h
              refine ⟨_, _, ?_, ?_,
                fun c hc => List.mem_takeWhile_imp hc,
                fun c hc => List.mem_takeWhile_imp hc, Or.inl rfl⟩
              · simp_all [List.isEmpty_iff]
              · simp_all [List.isEmpty_iff]
        · exact absurd h (by simp)
  · exact absurd h (by simp)

theorem searchGoAux_some (cs : List Char) :
    ∀ b v, searchGoAux b cs = some v → ∃ suffix, matchGoAt suffix = some v := by
  induction cs with
  | nil => intro b v h; exact absurd h (by simp [searchGoAux])
  | cons c rest ih =>
      intro b v h
      rw [searchGoAux] at h
      cases b with
      | true =>
          rw [if_pos rfl] at h
          cases hm : matchGoAt (c :: rest) with
          | some cap => rw [hm] at h; cases h; exact ⟨c :: rest, hm⟩
          | none => rw [hm] at h; exact ih _ v h
      | false =>
          rw [if_neg (by simp)] at h
          exact ih _ v h

theorem matchDepAt_shape (path cs : List Char) (v : List Char)
    (h : matchDepAt path cs = some v) :
    ∃ run, run ≠ [] ∧ (∀ c ∈ run, isDigitDot c = true) ∧ v = 'v' :: run := by
  rw [matchDepAt.eq_def] at h
  split at h
  · exact absurd h (by simp)
  · simp only [] at h
    split at h
    · exact absurd h (by simp)
    · split at h
      · split at h
        · exact absurd h (by simp)
        · cases h
          exact ⟨_, by simp_all [List.isEmpty_iff],
            fun c hc => List.mem_takeWhile_imp hc, rfl⟩
      · exact absurd h (by simp)

theorem searchDep_some (path : List Char) (cs : List Char) :
    ∀ v, searchDep path cs = some v → ∃ suffix, matchDepAt path suffix = some v := by
  induction cs with
  | nil => intro v h; exact absurd h (by simp [searchDep])
  | cons c rest ih =>
      intro v h
      rw [searchDep] at h
      cases hm : matchDepAt path (c :: rest) with
      | some cap => rw [hm] at h; cases h; exact ⟨c :: rest, hm⟩
      | none => rw [hm] at h; exact ih v h

/-- The claim-side reading of C3: the text holds, at some line-start
position, a go directive whose captured version is exactly ver. -/
def contains_go_aux (ver : List Char) : Bool → List Char → Bool
  | _, [] => false
  | lineStart, c :: rest =>
      (lineStart && decide (matchGoAt (c :: rest) = some ver)) ||
        contains_go_aux ver (c == '\n') rest

/-- Whether a text contains a line-anchored go directive capturing ver. -/
def contains_go_directive (ver : String) (s : String) : Bool :=
  contains_go_aux ver.data true s.data

/-- The lines of a text, split on newline characters. -/
def split_lines : List Char → List (List Char)
  | [] => [[]]
  | c :: rest =>
      match split_lines rest with
      | [] => [[c]]
      | l :: ls => if c = '\n' then [] :: l :: ls else (c :: l) :: ls

/-- The claim-side reading of C10: the text contains the given line. -/
def contains_line (needle hay : String) : Bool :=
  (split_lines hay.data).any (fun l => decide (l = needle.data))

/-- C3 counterexample: a text that does contain the line-anchored
directive go 1.21, preceded by the directive go 1.3, yields 1.3 and not
1.21 — re.search keeps the first matching line. -/
theorem go_directive_earlier_match_wins :
    contains_go_directive "1.21" "go 1.3\ngo 1.21" = true
    ∧ (parse_go_mod "go 1.3\ngo 1.21").1 = some "1.3"
    ∧ some "1.3" ≠ some "1.21" :=
  ⟨rfl, rfl, by decide⟩

/-- C3 amended: when the go 1.21 directive is the leftmost line-anchored
match of the go pattern (no earlier line-start position matches; earlier
positions inside a line are skipped by the multiline anchor and are
unconstrained) and is not followed by more version characters, extraction
yields 1.21; and every captured runtime version is a dotted numeric
version of two or three components taken from the first matching
position. -/
theorem go_directive_first_match :
    (∀ pre post : List Char,
      (pre = [] ∨ pre.getLast? = some '\n') →
      (∀ i, i < pre.length → line_start_flag true pre i = true →
        matchGoAt (pre.drop i ++ ("go 1.21".data ++ post)) = none) →
      (post = [] ∨ ∃ c cs, post = c :: cs ∧ pyIsDigit c = false ∧ c ≠ '.') →
      (parse_go_mod (String.mk (pre ++ ("go 1.21".data ++ post)))).1 = some "1.21")
    ∧ (∀ (content v : String), (parse_go_mod content).1 = some v →
        ∃ d1 d2, d1 ≠ [] ∧ d2 ≠ [] ∧ (∀ c ∈ d1, pyIsDigit c = true) ∧
          (∀ c ∈ d2, pyIsDigit c = true) ∧
          (v.data = d1 ++ '.' :: d2 ∨
            ∃ d3, d3 ≠ [] ∧ (∀ c ∈ d3, pyIsDigit c = true) ∧
              v.data = d1 ++ '.' :: d2 ++ '.' :: d3)) := by
  constructor
  · intro pre post h1 h2 h3
    have hne : pre ++ ("go 1.21".data ++ post) ≠ [] := by
      intro he
      have hlen := congrArg List.length he
      simp [List.length_append] at hlen
    rw [parse_go_mod]
    rw [if_neg (fun hcon => hne (by simpa using congrArg String.data hcon))]
    show Option.map String.mk (searchGo (pre ++ ("go 1.21".data ++ post))) = some "1.21"
    rw [searchGo, searchGoAux_append_anchored pre true ("go 1.21".data ++ post) h2]
    have hflag : flag_after true pre = true := by
      rcases h1 with h | h
      · subst h; rfl
      · exact flag_after_newline pre true h
    rw [hflag]
    have hm := matchGoAt_go121 post h3
    have hchain : "go 1.21".data ++ post =
        'g' :: 'o' :: ' ' :: '1' :: '.' :: '2' :: '1' :: post := rfl
    rw [hchain] at hm ⊢
    rw [searchGoAux, if_pos rfl]
    simp only [hm]
    rfl
  · intro content v h
    rw [parse_go_mod] at h
    by_cases hc : content = ""
    · rw [if_pos hc] at h
      exact absurd h (by simp)
    · rw [if_neg hc] at h
      simp only [Option.map_eq_some'] at h
      obtain ⟨l, hl, hv⟩ := h
      obtain ⟨suffix, hsuf⟩ := searchGoAux_some content.data true l hl
      have := matchGoAt_shape suffix l hsuf
      rw [← hv]
      simpa using this

/-- Spot check of C3 amended at a concrete text in which an earlier line
holds a mid-line occurrence of the unanchored core (a go 1.0, skipped by
the multiline anchor) and the inserted directive gives the first
line-anchored match. -/
theorem go_directive_first_match_spot :
    (parse_go_mod (String.mk ("a go 1.0\n".data ++
      ("go 1.21".data ++ "\nx".data)))).1 = some "1.21" :=
  go_directive_first_match.1 "a go 1.0\n".data "\nx".data
    (Or.inr (by decide)) (by decide)
    (Or.inr ⟨'\n', "x".data, rfl, by decide, by decide⟩)

/-- C10 counterexample: a text that does contain the rest-api line with
the -rc1 suffix, preceded by another rest-api line, yields the earlier
v9.9 and not v1.2.3 — re.search keeps the leftmost match. -/
theorem rest_api_earlier_match_wins :
    contains_line "github.com/redhat-cne/rest-api v1.2.3-rc1"
      "github.com/redhat-cne/rest-api v9.9\ngithub.com/redhat-cne/rest-api v1.2.3-rc1" = true
    ∧ (parse_go_mod
        "github.com/redhat-cne/rest-api v9.9\ngithub.com/redhat-cne/rest-api v1.2.3-rc1").2.1 =
      some "v9.9"
    ∧ some "v9.9" ≠ some "v1.2.3" :=
  ⟨rfl, rfl, by decide⟩

/-- C10 amended: when the rest-api line with the -rc1 suffix is the
leftmost match of the rest-api pattern, extraction yields v1.2.3 — the
capture takes the maximal run of digits and dots after the v and silently
drops the pre-release suffix; and every captured rest-api version is a v
followed by a nonempty run of digits and dots. -/
theorem rest_api_truncates_prerelease :
    (∀ pre post : List Char,
      (∀ i, i < pre.length →
        matchDepAt restApiPath
          (pre.drop i ++ ("github.com/redhat-cne/rest-api v1.2.3-rc1".data ++ post)) = none) →
      (parse_go_mod (String.mk
        (pre ++ ("github.com/redhat-cne/rest-api v1.2.3-rc1".data ++ post)))).2.1 =
        some "v1.2.3")
    ∧ (∀ (content v : String), (parse_go_mod content).2.1 = some v →
        ∃ run, run ≠ [] ∧ (∀ c ∈ run, isDigitDot c = true) ∧ v.data = 'v' :: run) := by
  constructor
  · intro pre post h2
    have hne : pre ++ ("github.com/redhat-cne/rest-api v1.2.3-rc1".data ++ post) ≠ [] := by
      intro he
      have hlen := congrArg List.length he
      simp [List.length_append] at hlen
    rw [parse_go_mod]
    rw [if_neg (fun hcon => hne (by simpa using congrArg String.data hcon))]
    show Option.map String.mk (searchDep restApiPath
      (pre ++ ("github.com/redhat-cne/rest-api v1.2.3-rc1".data ++ post))) = some "v1.2.3"
    rw [searchDep_append restApiPath pre ("github.com/redhat-cne/rest-api v1.2.3-rc1".data ++ post) h2]
    have hm := matchDepAt_restapi post
    have hchain : "github.com/redhat-cne/rest-api v1.2.3-rc1".data ++ post =
        'g' :: ("ithub.com/redhat-cne/rest-api v1.2.3-rc1".data ++ post) := rfl
    rw [hchain] at hm ⊢
    rw [searchDep]
    simp only [hm]
    rfl
  · intro content v h
    rw [parse_go_mod] at h
    by_cases hc : content = ""
    · rw [if_pos hc] at h
      exact absurd h (by simp)
    · rw [if_neg hc] at h
      simp only [Option.map_eq_some'] at h
      obtain ⟨l, hl, hv⟩ := h
      obtain ⟨suffix, hsuf⟩ := searchDep_some restApiPath content.data l hl
      have := matchDepAt_shape restApiPath suffix l hsuf
      rw [← hv]
      simpa using this

/-- Spot check of C10 amended at a concrete text whose only rest-api
match is the inserted line. -/
theorem rest_api_truncates_prerelease_spot :
    (parse_go_mod (String.mk ("module m\n".data ++
      ("github.com/redhat-cne/rest-api v1.2.3-rc1".data ++ "\n".data)))).2.1 =
      some "v1.2.3" :=
  rest_api_truncates_prerelease.1 "module m\n".data "\n".data (by decide)

end VersionTable
